import Mathlib

/-!
# Verification model of `cargo-ament-build` (`src/lib.rs`)

This file gives a shallow embedding of the install-layout synthesizer of
`cargo-ament-build` and proves properties of it.  The filesystem is modelled
as a finite tree of named entries; every fallible filesystem primitive of the
Rust standard library used by the tool is modelled as an `Option`/`Except`
returning function.  Paths are lists of components, mirroring `Path::join`
chains in the source (component strings are kept verbatim; `""` and `"."`
are dropped when a path string is split, matching `Path` component
normalization).  Parent-directory (`".."`) components are not resolved by the
model's primitives: operations on such paths fail, and `Path::file_name`
returns `none` for paths ending in `".."`, exactly as in Rust.

A directory node carries a `sym` flag marking a directory reached through a
symbolic link; `is_dir` follows links (so such a node still counts as a
directory) while `is_symlink` reports the flag, as in `std::fs`.
-/

namespace CAB

/-- A filesystem path, as the list of its components. -/
abbrev Path := List String

/-- Components that real `Path` navigation would treat specially; the model's
write primitives refuse to create entries with these names. -/
def validName (s : String) : Bool :=
  s ≠ "" && s ≠ "." && s ≠ ".."

/-- `Path::file_name`: the final component, unless the path is empty or ends
in a parent-directory component. -/
def fileName : Path → Option String
  | [] => none
  | [c] => if c = ".." then none else some c
  | _ :: rest => fileName rest

/-- Splitting a list of characters at `/` boundaries (the separator itself is
dropped; empty pieces are kept, to be filtered by the caller). -/
def splitSlash : List Char → List String
  | [] => [""]
  | c :: cs =>
      if c = '/' then "" :: splitSlash cs
      else
        match splitSlash cs with
        | [] => [⟨[c]⟩]
        | piece :: rest => ⟨c :: piece.data⟩ :: rest

/-- Splitting a path string appearing in the source (a binary name, profile,
package name or metadata entry) into components, as `Path::join` would. -/
def strToPath (s : String) : Path :=
  (splitSlash s.data).filter (fun c => c ≠ "" && c ≠ ".")

/-- `Path::with_extension` on the final component (used for
`manifest_path.with_extension("lock")`). -/
def withExtension (p : Path) (ext : String) : Path :=
  match p.getLast? with
  | none => p
  | some c =>
      let stem := match (c.splitOn ".").dropLast with
        | [] => c
        | parts => String.intercalate "." parts
      p.dropLast ++ [stem ++ "." ++ ext]

/-- Two paths diverge when they differ at some component that both possess.
Writes at `p` cannot be observed at `q` when `diverges p q`. -/
def diverges : Path → Path → Bool
  | a :: as_, b :: bs => a ≠ b || (a = b && diverges as_ bs)
  | _, _ => false

/-- A filesystem node: a regular file with contents, or a directory with an
ordered entry list.  `sym = true` marks a directory that is a symbolic link
(the one distinction the tool inspects). -/
inductive Node where
  | file (content : String)
  | dir (sym : Bool) (entries : List (String × Node))
deriving Repr

mutual

/-- Decidable equality of nodes (the nested inductive defeats `deriving`). -/
def Node.decEq : (a b : Node) → Decidable (a = b)
  | .file x, .file y =>
      if h : x = y then isTrue (by rw [h])
      else isFalse (by intro hh; cases hh; exact h rfl)
  | .file _, .dir _ _ => isFalse (by intro h; cases h)
  | .dir _ _, .file _ => isFalse (by intro h; cases h)
  | .dir s es, .dir t fs =>
      if h : s = t then
        match entriesDecEq es fs with
        | isTrue h2 => isTrue (by rw [h, h2])
        | isFalse h2 => isFalse (by intro hh; cases hh; exact h2 rfl)
      else isFalse (by intro hh; cases hh; exact h rfl)

/-- Decidable equality of entry lists. -/
def entriesDecEq : (a b : List (String × Node)) → Decidable (a = b)
  | [], [] => isTrue rfl
  | [], _ :: _ => isFalse (by intro h; cases h)
  | _ :: _, [] => isFalse (by intro h; cases h)
  | (n, v) :: r, (m, w) :: s =>
      if h : n = m then
        match Node.decEq v w, entriesDecEq r s with
        | isTrue h2, isTrue h3 => isTrue (by rw [h, h2, h3])
        | isFalse h2, _ => isFalse (by intro hh; cases hh; exact h2 rfl)
        | _, isFalse h3 => isFalse (by intro hh; cases hh; exact h3 rfl)
      else isFalse (by intro hh; cases hh; exact h rfl)

end

instance : DecidableEq Node := Node.decEq

/-- First entry of the list with the given name (directory lookup). -/
def lookupEntry (es : List (String × Node)) (n : String) : Option Node :=
  match es with
  | [] => none
  | (m, v) :: rest => if m = n then some v else lookupEntry rest n

/-- Insert or replace the entry named `n`; a new name is appended at the end,
an existing one is overwritten in place. -/
def insertEntry (es : List (String × Node)) (n : String) (v : Node) :
    List (String × Node) :=
  match es with
  | [] => [(n, v)]
  | (m, w) :: rest =>
      if m = n then (n, v) :: rest else (m, w) :: insertEntry rest n v

/-- Remove every entry named `n`. -/
def eraseEntry (es : List (String × Node)) (n : String) : List (String × Node) :=
  match es with
  | [] => []
  | (m, w) :: rest => if m = n then eraseEntry rest n else (m, w) :: eraseEntry rest n

/-- Resolve a path to the node it denotes, if any. -/
def Node.get : Node → Path → Option Node
  | nd, [] => some nd
  | .file _, _ :: _ => none
  | .dir _ es, n :: p =>
      match lookupEntry es n with
      | some c => c.get p
      | none => none

/-- `path.is_dir()` (follows symbolic links). -/
def isDir (fs : Node) (p : Path) : Bool :=
  match fs.get p with
  | some (.dir _ _) => true
  | _ => false

/-- `path.is_file()`. -/
def isFile (fs : Node) (p : Path) : Bool :=
  match fs.get p with
  | some (.file _) => true
  | _ => false

/-- `DirBuilder::new().recursive(true).create(p)` / `fs::create_dir_all`:
create every missing directory along `p`; fails if a prefix of `p` denotes a
file or a component is not a creatable name. -/
def createDirAll : Node → Path → Option Node
  | .file _, [] => none
  | .file _, _ :: _ => none
  | .dir sym es, [] => some (.dir sym es)
  | .dir sym es, n :: p =>
      if validName n then
        match lookupEntry es n with
        | some c =>
            match createDirAll c p with
            | some c2 => some (.dir sym (insertEntry es n c2))
            | none => none
        | none =>
            match createDirAll (.dir false []) p with
            | some c2 => some (.dir sym (insertEntry es n c2))
            | none => none
      else none

/-- Remove the node at `p` (used to model `fs::remove_dir_all` on a path the
code has checked to be a directory).  Removing a missing entry is a no-op. -/
def removePath : Node → Path → Node
  | nd, [] => nd
  | .file c, _ :: _ => .file c
  | .dir sym es, [n] => .dir sym (eraseEntry es n)
  | .dir sym es, n :: p =>
      match lookupEntry es n with
      | some c => .dir sym (insertEntry es n (removePath c p))
      | none => .dir sym es

/-- `if p.is_dir() { fs::remove_dir_all(p)?; }` — the wipe pattern used for
every destination subtree. -/
def wipeIfDir (fs : Node) (p : Path) : Node :=
  if isDir fs p then removePath fs p else fs

/-- Write a file at `p` (parent must already exist and be a directory, the
final slot must not be a directory): `fs::write` / the destination side of
`fs::copy` / `File::create`. -/
def setFile : Node → Path → String → Option Node
  | _, [], _ => none
  | .file _, _ :: _, _ => none
  | .dir sym es, [n], c =>
      if validName n then
        match lookupEntry es n with
        | some (.dir _ _) => none
        | _ => some (.dir sym (insertEntry es n (.file c)))
      else none
  | .dir sym es, n :: p, c =>
      match lookupEntry es n with
      | some ch =>
          match setFile ch p c with
          | some ch2 => some (.dir sym (insertEntry es n ch2))
          | none => none
      | none => none

/-- `std::fs::copy(src, dest)`: byte-copy of a single file. -/
def fsCopy (fs : Node) (src dest : Path) : Option Node :=
  match fs.get src with
  | some (.file c) => setFile fs dest c
  | _ => none

/-- Replace the node at an existing path (internal surgery helper used to
state what the installers build; not itself a filesystem primitive).  A
missing path leaves the tree unchanged. -/
def setSub : Node → Path → Node → Node
  | _, [], v => v
  | .file c, _ :: _, _ => .file c
  | .dir sym es, n :: p, v =>
      match lookupEntry es n with
      | some ch => .dir sym (insertEntry es n (setSub ch p v))
      | none => .dir sym es

/-- Insert entry `n ↦ v` into the directory at `dirPath` (no-op when the
path does not denote a directory). -/
def setEntryAt : Node → Path → String → Node → Node
  | .file c, _, _, _ => .file c
  | .dir sym es, [], n, v => .dir sym (insertEntry es n v)
  | .dir sym es, m :: p, n, v =>
      match lookupEntry es m with
      | some ch => .dir sym (insertEntry es m (setEntryAt ch p n v))
      | none => .dir sym es

mutual

/-- Well-formed tree: every entry list has pairwise distinct, creatable
names, recursively (true of any state reachable from a real filesystem). -/
def Node.wf : Node → Bool
  | .file _ => true
  | .dir _ es => entriesWf es

/-- Well-formedness of an entry list. -/
def entriesWf : List (String × Node) → Bool
  | [] => true
  | (n, v) :: rest =>
      validName n && (rest.all (fun e => e.1 ≠ n)) && Node.wf v && entriesWf rest

end

mutual

/-- Semantics of the external `cp -r src destslot` overlay: the new value of
the destination slot, given its old value (`none` when absent) and the source
subtree.  `cp` overwrites files, merges directories into directories,
reports an error (which `install_binaries` ignores, leaving the slot
unchanged) when a directory would overwrite a non-directory or vice versa,
and copies symbolic links as links. -/
def mergeNode : Option Node → Node → Node
  | none, src => src
  | some (.file _), .file c => .file c
  | some (.dir s es), .file _ => .dir s es
  | some (.file c), .dir _ _ => .file c
  | some (.dir s es), .dir _ es2 => .dir s (mergeInto es es2)

/-- Merge source entries one by one into destination entries. -/
def mergeInto (acc : List (String × Node)) : List (String × Node) →
    List (String × Node)
  | [] => acc
  | (n, c) :: rest => mergeInto (insertEntry acc n (mergeNode (lookupEntry acc n) c)) rest

end

/-- One spawned `cp -r <src> <destDir>` during header merging: best-effort,
its own failures are not inspected by the caller. -/
def cpInto (fs : Node) (src destDir : Path) (n : String) : Node :=
  match fs.get src, fs.get destDir with
  | some s, some (.dir _ _) =>
      setEntryAt fs destDir n (mergeNode (fs.get (destDir ++ [n])) s)
  | _, _ => fs

/-- Errors: ordinary `anyhow`-style errors (`.io`) versus a Rust panic
(`copy` calls `src.file_name().unwrap()`). -/
inductive Er where
  | io (msg : String)
  | panicked
deriving Repr, DecidableEq

/-- Result type of the fallible installers. -/
abbrev Res (α : Type) := Except Er α

/-- `cargo_manifest::Value` (TOML values; the `Float`/`Datetime` variants,
which the tool never constructs or matches specially, are omitted — they
behave like any other non-string, non-boolean value). -/
inductive Value where
  | str (s : String)
  | integer (i : Int)
  | boolean (b : Bool)
  | array (vs : List Value)
  | table (kvs : List (String × Value))
deriving Repr

/-- `cargo_manifest::Product`: only the `name` field is read by the tool. -/
structure Product where
  name : Option String
deriving Repr

/-- `cargo_manifest::Package`: the fields the tool reads. -/
structure Package where
  name : String
  build : Option Value
deriving Repr

/-- `cargo_manifest::Manifest`: the fields the tool reads. -/
structure Manifest where
  package : Option Package
deriving Repr

/-- Lookup in a TOML table. -/
def lookupTab (kvs : List (String × Value)) (k : String) : Option Value :=
  match kvs with
  | [] => none
  | (m, v) :: rest => if m = k then some v else lookupTab rest k

mutual

/-- The recursive `copy` helper (`fn copy(src, dest_dir)`), with explicit
fuel bounding the recursion depth (the Rust original diverges when the
destination lies inside the source; the model returns a recursion-limit
error there instead).  The very first action is
`dest_dir.join(src.file_name().unwrap())`, which panics when the source path
has no final normal component. -/
def copyFuel (fuel : Nat) (fs : Node) (src destDir : Path) : Res Node :=
  match fileName src with
  | none => .error .panicked
  | some name =>
      let dest := destDir ++ [name]
      if isDir fs src then
        match fuel with
        | 0 => .error (.io "recursion limit")
        | fuel2 + 1 =>
            match createDirAll fs dest with
            | none => .error (.io "failed to create directory")
            | some fs2 =>
                match fs2.get src with
                | some (.dir _ es) => copyDirEntries fuel2 fs2 src dest es
                | _ => .error (.io "failed to read directory")
      else if isFile fs src then
        match fsCopy fs src dest with
        | some fs2 => .ok fs2
        | none => .error (.io "Failed to copy file")
      else .error (.io "File or dir does not exist")

/-- The `read_dir` loop inside `copy`: directory entries recurse (via a
fresh `copy` of the entry path), anything else — including a symbolic link
to a directory, whose `file_type()` is not a directory — goes through
`fs::copy`. -/
def copyDirEntries (fuel : Nat) (fs : Node) (src dest : Path) :
    List (String × Node) → Res Node
  | [] => .ok fs
  | (n, c) :: rest =>
      match c with
      | .dir false _ =>
          match copyFuel fuel fs (src ++ [n]) dest with
          | .ok fs2 => copyDirEntries fuel fs2 src dest rest
          | .error e => .error e
      | _ =>
          match fsCopy fs (src ++ [n]) (dest ++ [n]) with
          | some fs2 => copyDirEntries fuel fs2 src dest rest
          | none => .error (.io "Failed to copy file")

end

/-- Size of a tree, used to pick a sufficient recursion fuel for `copy`. -/
def Node.size : Node → Nat
  | .file _ => 1
  | .dir _ es => 1 + entriesSize es
where
  /-- Combined size of an entry list. -/
  entriesSize : List (String × Node) → Nat
  | [] => 0
  | (_, v) :: rest => Node.size v + entriesSize rest

/-- `fn copy(src, dest_dir)` of the source, at a fuel that the recursion
never exhausts unless the destination lies inside the source. -/
def copy (fs : Node) (src destDir : Path) : Res Node :=
  copyFuel (fs.size + 1) fs src destDir

/-- The sentinel marker file name (`ROS_INCLUDE_MARKER`). -/
def rosIncludeMarker : String := "CARGO_ROS_INCLUDE_ROOT"

/-- The fixed `(prefix, suffix)` linkage-convention pairs
(`prefix_suffix_combinations`), in source order. -/
def prefixSuffixCombinations : List (String × String) :=
  [("lib", "so"), ("lib", "dylib"), ("lib", "a"), ("", "dll"), ("", "lib")]

mutual

/-- `find_markers` on an entered directory node: record the directory itself
when it directly contains the marker as a file, then scan its entries in
order.  Returned paths are relative to the entered directory, in discovery
(pre-)order. -/
def findMarkersNode (marker : String) : Node → List Path
  | .file _ => []
  | .dir _ es =>
      (match lookupEntry es marker with
       | some (.file _) => [([] : Path)]
       | _ => []) ++ findMarkersEntries marker es

/-- The `read_dir` loop of `find_markers`: recurse into an entry only when
it is a directory and not a symbolic link. -/
def findMarkersEntries (marker : String) : List (String × Node) → List Path
  | [] => []
  | (n, c) :: rest =>
      (match c with
       | .dir false _ => (findMarkersNode marker c).map (fun p => n :: p)
       | _ => []) ++ findMarkersEntries marker rest

end

/-- `find_markers(&src_dir, ROS_INCLUDE_MARKER, &mut include_roots)`: the
top-level call enters `src_dir` whenever it is a directory (even through a
link); discovered roots are absolute paths. -/
def findRoots (fs : Node) (srcDir : Path) (marker : String) : List Path :=
  match fs.get srcDir with
  | some (.dir s es) => (findMarkersNode marker (.dir s es)).map (fun p => srcDir ++ p)
  | _ => []

/-- The binary-copying loop of `install_binaries` (lines 220–231): a binary
without a name is a hard error; the destination directory is (re)created
before each copy; a missing binary file is a hard error. -/
def copyBinaries (srcDir destDir : Path) (fs : Node) : List Product → Res Node
  | [] => .ok fs
  | b :: rest =>
      match b.name with
      | none => .error (.io "Binary without name found")
      | some name =>
          let src := srcDir ++ strToPath name
          let dest := destDir ++ strToPath name
          match createDirAll fs destDir with
          | none => .error (.io "failed to create directory")
          | some fs2 =>
              match fsCopy fs2 src dest with
              | some fs3 => copyBinaries srcDir destDir fs3 rest
              | none => .error (.io "Failed to copy binary")

/-- The library-candidate loop of `install_binaries` (lines 241–254): for
each fixed combination, a present candidate is copied and its filename
collected; an absent candidate is silently skipped. -/
def copyLibraries (srcDir destDir : Path) (pkg : String) (fs : Node) :
    List (String × String) → Res (Node × List String)
  | [] => .ok (fs, [])
  | (pre, suf) :: rest =>
      let filename := pre ++ pkg ++ "." ++ suf
      let src := srcDir ++ [filename]
      let dest := destDir ++ [filename]
      if isFile fs src then
        match createDirAll fs destDir with
        | none => .error (.io "failed to create directory")
        | some fs2 =>
            match fsCopy fs2 src dest with
            | some fs3 =>
                match copyLibraries srcDir destDir pkg fs3 rest with
                | .ok (fs4, libs) => .ok (fs4, filename :: libs)
                | .error e => .error e
            | none => .error (.io "Failed to copy library")
      else copyLibraries srcDir destDir pkg fs rest

/-- The per-root merge loop (lines 298–314): `read_dir` the root (a hard
error if it no longer exists), then `cp -r` every entry except the root's
own marker into the include directory. -/
def mergeEntries (root includeDir : Path) (marker : String) (fs : Node) :
    List (String × Node) → Node
  | [] => fs
  | (n, _) :: rest =>
      if n = marker then mergeEntries root includeDir marker fs rest
      else mergeEntries root includeDir marker (cpInto fs (root ++ [n]) includeDir n) rest

/-- Merging all discovered roots, in discovery order. -/
def mergeRoots (includeDir : Path) (marker : String) (fs : Node) :
    List Path → Res Node
  | [] => .ok fs
  | root :: rest =>
      match fs.get root with
      | some (.dir _ es) =>
          mergeRoots includeDir marker (mergeEntries root includeDir marker fs es) rest
      | _ => .error (.io "failed to read directory")

/-- The include-merging block of `install_binaries` (lines 287–315),
executed only when at least one root was found: wipe `include/<pkg>`,
recreate it, then merge the roots. -/
def includePhase (includeDir : Path) (roots : List Path) (fs : Node) : Res Node :=
  if roots.isEmpty then .ok fs
  else
    let fs2 := wipeIfDir fs includeDir
    match createDirAll fs2 includeDir with
    | none => .error (.io "failed to create directory")
    | some fs3 => mergeRoots includeDir rosIncludeMarker fs3 roots

/-- Modelled from the spec: the fixed text template `cmakeConfig.cmake.in`
is compiled into the binary via `include_str!` and its text is not part of
the sources; the spec describes it as a fixed template with exactly three
substitution tokens, which the code replaces in the order package name,
library list, has-includes flag. -/
def cmakeTemplate : String :=
  "set(package @PACKAGE_NAME@)\nset(libs @PACKAGE_LIBRARY_LIST@)\nset(has_includes @HAVE_INCLUDE_FILES@)\n"

/-- Literal, leftmost, non-overlapping replacement of a non-empty pattern in
a character list (`str::replace` semantics), with fuel bounding the walk; one
character is consumed per step, so the list's length is sufficient fuel.  (An
empty pattern is never replaced; the tool's three tokens are non-empty.) -/
def replaceChars (pat rep : List Char) : Nat → List Char → List Char
  | _, [] => []
  | 0, s => s
  | fuel + 1, c :: cs =>
      if pat ≠ [] && List.isPrefixOf pat (c :: cs) then
        rep ++ replaceChars pat rep fuel (List.drop (pat.length - 1) cs)
      else c :: replaceChars pat rep fuel cs

/-- `str::replace(pattern, replacement)`. -/
def strReplace (s pat rep : String) : String :=
  ⟨replaceChars pat.data rep.data s.data.length s.data⟩

/-- The config text generated at lines 323–330: the template with the three
tokens substituted by successive literal replacement. -/
def cmakeConfigText (pkg : String) (libraries : List String) (haveIncludes : Bool) :
    String :=
  strReplace (strReplace (strReplace cmakeTemplate "@PACKAGE_NAME@" pkg)
      "@PACKAGE_LIBRARY_LIST@" (String.intercalate ";" libraries))
    "@HAVE_INCLUDE_FILES@" (if haveIncludes then "TRUE" else "FALSE")

/-- The config-generation block of `install_binaries` (lines 317–331): wipe
and recreate `share/<pkg>/cmake`, then write `<pkg>Config.cmake`. -/
def cmakePhase (cmakeDir : Path) (pkg : String) (libraries : List String)
    (haveIncludes : Bool) (fs : Node) : Res Node :=
  let fs2 := wipeIfDir fs cmakeDir
  match createDirAll fs2 cmakeDir with
  | none => .error (.io "failed to create directory")
  | some fs3 =>
      match setFile fs3 (cmakeDir ++ [pkg ++ "Config.cmake"])
          (cmakeConfigText pkg libraries haveIncludes) with
      | some fs4 => .ok fs4
      | none => .error (.io "failed to write config")

/-- The destination `lib/<pkg>` of the artifact installer. -/
def libDest (installBase : Path) (pkg : String) : Path :=
  installBase ++ ["lib"] ++ strToPath pkg

/-- The destination `include/<pkg>` of the artifact installer. -/
def includeDest (installBase : Path) (pkg : String) : Path :=
  installBase ++ ["include"] ++ strToPath pkg

/-- The destination `share/<pkg>/cmake` of the artifact installer. -/
def cmakeDest (installBase : Path) (pkg : String) : Path :=
  installBase ++ ["share"] ++ strToPath pkg ++ ["cmake"]

/-- `install_binaries` (lines 206–333): wipe `lib/<pkg>`; copy the named
binaries (hard errors); copy the present library candidates (silent skips);
discover include roots; merge them (after wiping `include/<pkg>`) only when
at least one was found; generate the cmake config. -/
def installBinaries (fs : Node) (installBase buildBase : Path) (pkg profile : String)
    (binaries : List Product) : Res Node := do
  let srcDir := buildBase ++ strToPath profile
  let destDir := libDest installBase pkg
  let fs1 := wipeIfDir fs destDir
  let fs2 ← copyBinaries srcDir destDir fs1 binaries
  let (fs3, libraries) ← copyLibraries srcDir destDir pkg fs2 prefixSuffixCombinations
  let includeRoots := findRoots fs3 srcDir rosIncludeMarker
  let haveIncludes := !includeRoots.isEmpty
  let fs4 ← includePhase (includeDest installBase pkg) includeRoots fs3
  cmakePhase (cmakeDest installBase pkg) pkg libraries haveIncludes fs4

/-- The mirror directory `share/<pkg>/rust` of the source installer. -/
def rustDest (installBase : Path) (pkg : String) : Path :=
  installBase ++ ["share"] ++ strToPath pkg ++ ["rust"]

/-- The copies of `install_package` after the build-script resolution
(lines 194–201): the package source directory, the manifest, its companion
lock file, and the package descriptor (the latter into the parent of the
mirror directory). -/
def installPackageTail (fs : Node) (packagePath manifestPath destDir : Path) :
    Res Node := do
  let fs1 ← copy fs (packagePath ++ ["src"]) destDir
  let fs2 ← copy fs1 manifestPath destDir
  let fs3 ← copy fs2 (withExtension manifestPath "lock") destDir
  copy fs3 (packagePath ++ ["package.xml"]) destDir.dropLast

/-- `install_package` (lines 165–203): wipe and recreate the mirror
directory, resolve the tri-state `build` field (panicking if the manifest
carries no package, as `main` is assumed to have validated it), copy the
explicit build script if any, then the source mirror copies. -/
def installPackage (fs : Node) (installBase packagePath manifestPath : Path)
    (pkg : String) (manifest : Manifest) : Res Node := do
  let destDir := rustDest installBase pkg
  let fs1 := wipeIfDir fs destDir
  match createDirAll fs1 destDir with
  | none => .error (.io "failed to create directory")
  | some fs2 =>
      match manifest.package with
      | none => .error .panicked
      | some package => do
          let build ← (match package.build with
            | some (.boolean false) => .ok none
            | some (.str path) => .ok (some path)
            | some _ => .error (.io "Value of 'build' is not a string or boolean")
            | none => (.ok none : Res (Option String)))
          let fs3 ← (match build with
            | some filename => copy fs2 (packagePath ++ strToPath filename) destDir
            | none => .ok fs2)
          installPackageTail fs3 packagePath manifestPath destDir

/-- The per-entry copy loop of `install_files_from_metadata`
(lines 369–376). -/
def copyMetadataEntries (packagePath dest : Path) (fs : Node) :
    List String → Res Node
  | [] => .ok fs
  | relPath :: rest =>
      match copy fs (packagePath ++ strToPath relPath) dest with
      | .ok fs2 => copyMetadataEntries packagePath dest fs2 rest
      | .error e => .error e

/-- Element validation of a declarative array (lines 360–368): every element
must be a string. -/
def collectStrings (key : String) : List Value → Res (List String)
  | [] => .ok []
  | .str s :: rest =>
      match collectStrings key rest with
      | .ok ss => .ok (s :: ss)
      | .error e => .error e
  | _ :: rest =>
      let _ := rest
      .error (.io ("The elements of the [package.metadata.ros." ++ key ++
        "] array must be strings"))

/-- The kind loop of `install_files_from_metadata` (lines 351–377), over the
fixed order `["share", "include", "lib"]`: the destination directory is
created first; an absent key returns success for the whole operation
immediately; a present non-array key is a hard error; otherwise every listed
path is copied. -/
def installKinds (installBase packagePath : Path) (pkg : String)
    (ros : List (String × Value)) (fs : Node) : List String → Res Node
  | [] => .ok fs
  | subdir :: rest =>
      let dest := installBase ++ [subdir] ++ strToPath pkg
      match createDirAll fs dest with
      | none => .error (.io "failed to create directory")
      | some fs2 =>
          let key := "install_to_" ++ subdir
          match lookupTab ros key with
          | some (.array arr) =>
              (match collectStrings key arr with
               | .error e => .error e
               | .ok entries =>
                   match copyMetadataEntries packagePath dest fs2 entries with
                   | .error e => .error e
                   | .ok fs3 => installKinds installBase packagePath pkg ros fs3 rest)
          | some _ =>
              .error (.io ("The [package.metadata.ros." ++ key ++
                "] entry is not an array"))
          | none => .ok fs2

/-- `install_files_from_metadata` (lines 336–379): no-op success unless the
metadata is a table containing a `ros` table; then the kind loop. -/
def installFilesFromMetadata (fs : Node) (installBase packagePath : Path)
    (pkg : String) (metadata : Option Value) : Res Node :=
  match metadata with
  | some (.table tab) =>
      match lookupTab tab "ros" with
      | some (.table ros) =>
          installKinds installBase packagePath pkg ros fs ["share", "include", "lib"]
      | _ => .ok fs
  | _ => .ok fs

/-!
## View functions

The artifact installer reads only the build-output subtree
`build_base/profile`.  The following pure functions compute, from that
subtree alone (the "view" `v`), the data the run derives from it; the
characterization lemmas below show a successful run is fully determined by
them.
-/

/-- Resolve a path inside the view. -/
def viewGet (v : Option Node) (r : Path) : Option Node :=
  match v with
  | some nd => nd.get r
  | none => none

/-- The filenames of the present library candidates among a combination
list, in list order. -/
def libsOfList (v : Option Node) (pkg : String) :
    List (String × String) → List String
  | [] => []
  | pc :: rest =>
      match viewGet v [pc.1 ++ pkg ++ "." ++ pc.2] with
      | some (.file _) => (pc.1 ++ pkg ++ "." ++ pc.2) :: libsOfList v pkg rest
      | _ => libsOfList v pkg rest

/-- The filenames of the present library candidates, in the fixed
combination order. -/
def libsOf (v : Option Node) (pkg : String) : List String :=
  libsOfList v pkg prefixSuffixCombinations

/-- The entry list the binary-copy loop accumulates in `lib/<pkg>`
(meaningful under the success conditions the characterization lemma
extracts). -/
def binEntries (v : Option Node) : List Product → List (String × Node) →
    List (String × Node)
  | [], es => es
  | b :: rest, es =>
      binEntries v rest
        (match b.name with
         | some name =>
             (match strToPath name, viewGet v (strToPath name) with
              | [n], some (.file c) => insertEntry es n (.file c)
              | _, _ => es)
         | none => es)

/-- The entry list after the library-candidate loop has added the present
candidates. -/
def libEntries (v : Option Node) (pkg : String) : List (String × String) →
    List (String × Node) → List (String × Node)
  | [], es => es
  | (pre, suf) :: rest, es =>
      let fn := pre ++ pkg ++ "." ++ suf
      libEntries v pkg rest
        (match viewGet v [fn] with
         | some (.file c) => insertEntry es fn (.file c)
         | _ => es)

/-- The full entry list of `lib/<pkg>` a successful run builds. -/
def builtLibEntries (v : Option Node) (pkg : String) (binaries : List Product) :
    List (String × Node) :=
  libEntries v pkg prefixSuffixCombinations (binEntries v binaries [])

/-- Whether the lib phase writes at all (and hence creates `lib/<pkg>`). -/
def libWrites (v : Option Node) (pkg : String) (binaries : List Product) : Bool :=
  !binaries.isEmpty || !(libsOf v pkg).isEmpty

/-- The include roots, as paths relative to the build-output subtree. -/
def relRoots (v : Option Node) (marker : String) : List Path :=
  match v with
  | some nd => findMarkersNode marker nd
  | none => []

/-- The entry list of the directory at `r` in the view (empty if not a
directory). -/
def entriesAt (v : Option Node) (r : Path) : List (String × Node) :=
  match viewGet v r with
  | some (.dir _ es) => es
  | _ => []

/-- Pure mirror of `mergeEntries` on the include directory's entry list:
`es` is the `read_dir` snapshot of the root, `iter` the remaining entries of
the iteration. -/
def mergeEntriesPure (es : List (String × Node)) (marker : String)
    (acc : List (String × Node)) : List (String × Node) → List (String × Node)
  | [] => acc
  | (n, _) :: iter =>
      if n = marker then mergeEntriesPure es marker acc iter
      else
        match lookupEntry es n with
        | some s =>
            mergeEntriesPure es marker
              (insertEntry acc n (mergeNode (lookupEntry acc n) s)) iter
        | none => mergeEntriesPure es marker acc iter

/-- Pure mirror of `mergeRoots`: the entry list of `include/<pkg>` built by
merging the given relative roots into `acc`. -/
def mergedOf (v : Option Node) (marker : String) (acc : List (String × Node)) :
    List Path → List (String × Node)
  | [] => acc
  | r :: rest =>
      mergedOf v marker
        (mergeEntriesPure (entriesAt v r) marker acc (entriesAt v r)) rest

/-- Entry lists whose values are all regular files (the only shape the
binary/library loops ever build). -/
def AllFiles (es : List (String × Node)) : Prop :=
  ∀ e ∈ es, ∃ c, e.2 = Node.file c

mutual

/-- Entry names are pairwise distinct throughout the tree, as `read_dir`
guarantees for a real directory. -/
def nodupNames : Node → Bool
  | .file _ => true
  | .dir _ es => nodupEntries es

/-- Distinctness for one entry list, recursively. -/
def nodupEntries : List (String × Node) → Bool
  | [] => true
  | (n, v) :: rest => rest.all (fun e => e.1 ≠ n) && nodupNames v && nodupEntries rest

end

/-- Navigation as `find_markers` performs it below the entered top
directory: intermediate and final components must be directories that are
not symbolic links. -/
def reachNoSym : Node → Path → Option Node
  | nd, [] => some nd
  | .file _, _ :: _ => none
  | .dir _ es, n :: p =>
      match lookupEntry es n with
      | some (.dir false es2) => reachNoSym (.dir false es2) p
      | _ => none

/-!
## Concrete fixtures

Small filesystem trees on which the installers are evaluated to exhibit
concrete behaviours.
-/

/-- The tree of a successful run (a dummy on error). -/
def resNode : Res Node → Node
  | .ok g => g
  | .error _ => .dir false []

/-- A build output (`b/t`) whose root `a` carries the sentinel and contains a
subdirectory `c` that is itself a (nested) root. -/
def fsNested : Node :=
  .dir false [("b", .dir false [("t", .dir false
    [("a", .dir false
      [(rosIncludeMarker, .file ""),
       ("c", .dir false
         [(rosIncludeMarker, .file ""), ("h.txt", .file "H")])])])])]

/-- The result of the artifact installer on `fsNested`. -/
def gNested : Node := resNode (installBinaries fsNested ["i"] ["b"] "p" "t" [])

/-- An install space whose `include/p` holds a file from an earlier run,
while the build output (`b/t`) no longer contains any include root. -/
def fsStale : Node :=
  .dir false
    [("b", .dir false [("t", .dir false [])]),
     ("i", .dir false [("include", .dir false
       [("p", .dir false [("old.h", .file "OLD")])])])]

/-- The result of the artifact installer on `fsStale`. -/
def gStale : Node := resNode (installBinaries fsStale ["i"] ["b"] "p" "t" [])

/-- An install base that lies inside the build output
(`install base = build base / profile`), whose build output holds two roots:
`a1` contains a subdirectory `f` that is itself a root, `a2` contains a plain
subdirectory `f` with a header. -/
def fsTwice : Node :=
  .dir false [("b", .dir false [("t", .dir false
    [("a1", .dir false
       [(rosIncludeMarker, .file ""),
        ("f", .dir false [(rosIncludeMarker, .file "")])]),
     ("a2", .dir false
       [(rosIncludeMarker, .file ""),
        ("f", .dir false [("h.txt", .file "H")])])])])]

/-- First run of the artifact installer on `fsTwice`. -/
def gTwice1 : Node := resNode (installBinaries fsTwice ["b", "t"] ["b"] "p" "t" [])

/-- Second run of the artifact installer, on the first run's output. -/
def gTwice2 : Node := resNode (installBinaries gTwice1 ["b", "t"] ["b"] "p" "t" [])

/-- An install space with a regular file sitting at `lib/p`. -/
def fsLibFile : Node :=
  .dir false
    [("b", .dir false [("t", .dir false [])]),
     ("i", .dir false [("lib", .dir false [("p", .file "stale")])])]

/-- The result of the artifact installer on `fsLibFile`. -/
def gLibFile : Node := resNode (installBinaries fsLibFile ["i"] ["b"] "p" "t" [])

/-- An empty install space next to an empty build output. -/
def fsTiny : Node := .dir false [("b", .dir false [("t", .dir false [])])]

/-- First run of the artifact installer on `fsTiny`. -/
def gTiny1 : Node := resNode (installBinaries fsTiny ["i"] ["b"] "p" "t" [])

/-- Second run of the artifact installer, on the first run's output. -/
def gTiny2 : Node := resNode (installBinaries gTiny1 ["i"] ["b"] "p" "t" [])

/-- A build output holding the shared-library candidate `libp.so`. -/
def fsLib : Node :=
  .dir false [("b", .dir false [("t", .dir false [("libp.so", .file "L")])])]

/-- The result of the artifact installer on `fsLib`. -/
def gLib : Node := resNode (installBinaries fsLib ["i"] ["b"] "p" "t" [])

/-- A binaries list with a nameless product. -/
def binsBad : List Product := [⟨none⟩]

/-- A package directory holding one file, next to an install base `i`. -/
def fsMeta : Node :=
  .dir false [("i", .dir false []), ("pkg", .dir false [("f.txt", .file "F")])]

/-- A `ros` metadata table declaring `install_to_share = [".."]`. -/
def rosDotDot : List (String × Value) :=
  [("install_to_share", .array [.str ".."])]

/-- A directory holding the sentinel in a plain subdirectory `d` and in a
symlinked subdirectory `s`. -/
def ndSym : Node :=
  .dir false
    [("d", .dir false [(rosIncludeMarker, .file "")]),
     ("s", .dir true [(rosIncludeMarker, .file "")])]

/-- A `ros` metadata table declaring only `install_to_include`. -/
def rosIncludeOnly : List (String × Value) :=
  [("install_to_include", .array [.str "f.txt"])]

/-- The tree after `createDirAll` in the metadata installer's `share` kind on
`fsMeta`. -/
def fsMetaShare : Node :=
  (createDirAll fsMeta (["i"] ++ ["share"] ++ strToPath "p")).getD (.dir false [])

/-- The tree after wiping and recreating the rust mirror directory on
`fsTiny`. -/
def fsTinyRust : Node :=
  (createDirAll (wipeIfDir fsTiny (rustDest ["i"] "p")) (rustDest ["i"] "p")).getD
    (.dir false [])

/-!
## Entry-list and path lemmas
-/

theorem lookupEntry_insertEntry (es : List (String × Node)) (n : String) (v : Node)
    (m : String) :
    lookupEntry (insertEntry es n v) m = if n = m then some v else lookupEntry es m := by
  induction es with
  | nil =>
      by_cases h : n = m <;> simp [insertEntry, lookupEntry, h]
  | cons e rest ih =>
      obtain ⟨a, w⟩ := e
      by_cases han : a = n
      · subst han
        by_cases h : a = m <;> simp [insertEntry, lookupEntry, h]
      · by_cases h : a = m
        · subst h
          have hnm : ¬ n = a := fun hh => han hh.symm
          simp [insertEntry, lookupEntry, han, hnm]
        · simp [insertEntry, lookupEntry, han, h, ih]

theorem lookupEntry_eraseEntry (es : List (String × Node)) (n m : String) :
    lookupEntry (eraseEntry es n) m = if n = m then none else lookupEntry es m := by
  induction es with
  | nil => by_cases h : n = m <;> simp [eraseEntry, lookupEntry, h]
  | cons e rest ih =>
      obtain ⟨a, w⟩ := e
      by_cases han : a = n
      · subst han
        have hma : lookupEntry ((a, w) :: rest) m = if a = m then some w else lookupEntry rest m := rfl
        by_cases h : a = m
        · subst h
          simp [eraseEntry, lookupEntry, ih]
        · simp [eraseEntry, lookupEntry, h, ih]
      · by_cases h : a = m
        · subst h
          have hnm : ¬ n = a := fun hh => han hh.symm
          simp [eraseEntry, lookupEntry, han, hnm]
        · simp [eraseEntry, lookupEntry, han, h, ih]

theorem insertEntry_lookup_self (es : List (String × Node)) (n : String) (v : Node)
    (h : lookupEntry es n = some v) : insertEntry es n v = es := by
  induction es with
  | nil => simp [lookupEntry] at h
  | cons e rest ih =>
      obtain ⟨a, w⟩ := e
      by_cases han : a = n
      · subst han
        simp [lookupEntry] at h
        simp [insertEntry, h]
      · simp [lookupEntry, han] at h
        simp [insertEntry, han, ih h]

theorem insertEntry_insertEntry (es : List (String × Node)) (n : String) (v w : Node) :
    insertEntry (insertEntry es n v) n w = insertEntry es n w := by
  induction es with
  | nil => simp [insertEntry]
  | cons e rest ih =>
      obtain ⟨a, u⟩ := e
      by_cases han : a = n
      · subst han; simp [insertEntry]
      · simp [insertEntry, han, ih]

theorem insertEntry_of_lookup_none (es : List (String × Node)) (n : String) (v : Node)
    (h : lookupEntry es n = none) : insertEntry es n v = es ++ [(n, v)] := by
  induction es with
  | nil => simp [insertEntry]
  | cons e rest ih =>
      obtain ⟨a, w⟩ := e
      by_cases han : a = n
      · subst han; simp [lookupEntry] at h
      · simp [lookupEntry, han] at h
        simp [insertEntry, han, ih h]

theorem lookupEntry_append_right (front : List (String × Node)) (n : String)
    (tail : List (String × Node)) (h : lookupEntry front n = none) :
    lookupEntry (front ++ tail) n = lookupEntry tail n := by
  induction front with
  | nil => simp
  | cons e rest ih =>
      obtain ⟨a, w⟩ := e
      by_cases han : a = n
      · subst han; simp [lookupEntry] at h
      · simp [lookupEntry, han] at h ⊢
        exact ih h

theorem eraseEntry_append_last (front : List (String × Node)) (n : String) (v : Node)
    (h : lookupEntry front n = none) :
    eraseEntry (front ++ [(n, v)]) n = front := by
  induction front with
  | nil => simp [eraseEntry]
  | cons e rest ih =>
      obtain ⟨a, w⟩ := e
      by_cases han : a = n
      · subst han; simp [lookupEntry] at h
      · simp [lookupEntry, han] at h
        simp [eraseEntry, han, ih h]

theorem insertEntry_append_last (front : List (String × Node)) (n : String) (v w : Node)
    (h : lookupEntry front n = none) :
    insertEntry (front ++ [(n, v)]) n w = front ++ [(n, w)] := by
  induction front with
  | nil => simp [insertEntry]
  | cons e rest ih =>
      obtain ⟨a, u⟩ := e
      by_cases han : a = n
      · subst han; simp [lookupEntry] at h
      · simp [lookupEntry, han] at h
        simp [insertEntry, han, ih h]

theorem Node.get_append (fs : Node) (p q : Path) :
    fs.get (p ++ q) = (fs.get p).bind (fun w => w.get q) := by
  induction p generalizing fs with
  | nil => simp [Node.get]
  | cons a p ih =>
      cases fs with
      | file c => simp [Node.get]
      | dir s es =>
          simp only [List.cons_append, Node.get]
          cases lookupEntry es a with
          | none => simp
          | some c => simpa using ih c

theorem diverges_symm (p q : Path) : diverges p q = diverges q p := by
  induction p generalizing q with
  | nil => cases q <;> simp [diverges]
  | cons a p ih =>
      cases q with
      | nil => simp [diverges]
      | cons b q =>
          by_cases h : a = b
          · subst h; simp [diverges, ih]
          · have h2 : ¬ b = a := fun hh => h hh.symm
            simp [diverges, h, h2]

theorem diverges_append_right (p q s : Path) (h : diverges p q = true) :
    diverges p (q ++ s) = true := by
  induction p generalizing q with
  | nil => simp [diverges] at h
  | cons a p ih =>
      cases q with
      | nil => simp [diverges] at h
      | cons b q =>
          by_cases hab : a = b
          · subst hab
            simp [diverges] at h ⊢
            exact ih q h
          · simp [diverges, hab]

theorem diverges_append_left (p q s : Path) (h : diverges p q = true) :
    diverges (p ++ s) q = true := by
  rw [diverges_symm] at h ⊢
  exact diverges_append_right q p s h

theorem diverges_shared (a : Path) (x y : String) (u w : Path) (h : x ≠ y) :
    diverges (a ++ x :: u) (a ++ y :: w) = true := by
  induction a with
  | nil => simp [diverges, h]
  | cons c a ih => simpa [diverges] using ih

/-!
## Frame lemmas: a write at `p` is invisible at any `q` diverging from `p`
-/

theorem get_removePath_of_diverges (fs : Node) (p q : Path) (h : diverges p q = true) :
    (removePath fs p).get q = fs.get q := by
  induction p generalizing fs q with
  | nil => simp [diverges] at h
  | cons n p ih =>
      cases fs with
      | file c => simp [removePath]
      | dir sym es =>
          cases q with
          | nil => simp [diverges] at h
          | cons b q2 =>
              cases p with
              | nil =>
                  have hnb : n ≠ b := by
                    by_cases hx : n = b
                    · subst hx; simp [diverges] at h
                    · exact hx
                  simp [removePath, Node.get, lookupEntry_eraseEntry, hnb]
              | cons m p2 =>
                  by_cases hnb : n = b
                  · subst hnb
                    simp [diverges] at h
                    cases hl : lookupEntry es n with
                    | none => simp [removePath, hl]
                    | some c =>
                        simp [removePath, hl, Node.get, lookupEntry_insertEntry]
                        exact ih c q2 h
                  · cases hl : lookupEntry es n with
                    | none => simp [removePath, hl]
                    | some c =>
                        simp [removePath, hl, Node.get, lookupEntry_insertEntry, hnb]

theorem get_wipeIfDir_of_diverges (fs : Node) (p q : Path) (h : diverges p q = true) :
    (wipeIfDir fs p).get q = fs.get q := by
  by_cases hd : isDir fs p <;> simp [wipeIfDir, hd, get_removePath_of_diverges _ _ _ h]

theorem get_setSub_of_diverges (fs : Node) (p q : Path) (v : Node)
    (h : diverges p q = true) : (setSub fs p v).get q = fs.get q := by
  induction p generalizing fs q with
  | nil => simp [diverges] at h
  | cons n p ih =>
      cases fs with
      | file c => simp [setSub]
      | dir sym es =>
          cases q with
          | nil => simp [diverges] at h
          | cons b q2 =>
              by_cases hnb : n = b
              · subst hnb
                simp [diverges] at h
                cases hl : lookupEntry es n with
                | none => simp [setSub, hl]
                | some c =>
                    simp [setSub, hl, Node.get, lookupEntry_insertEntry]
                    exact ih c q2 h
              · cases hl : lookupEntry es n with
                | none => simp [setSub, hl]
                | some c =>
                    simp [setSub, hl, Node.get, lookupEntry_insertEntry, hnb]

theorem get_setEntryAt_of_diverges (fs : Node) (p : Path) (n : String) (v : Node)
    (q : Path) (h : diverges (p ++ [n]) q = true) :
    (setEntryAt fs p n v).get q = fs.get q := by
  induction p generalizing fs q with
  | nil =>
      cases fs with
      | file c => rfl
      | dir sym es =>
          cases q with
          | nil => simp [diverges] at h
          | cons b q2 =>
              have hnb : n ≠ b := by
                by_cases hx : n = b
                · subst hx; simp [diverges] at h
                · exact hx
              simp [setEntryAt, Node.get, lookupEntry_insertEntry, hnb]
  | cons m p ih =>
      cases fs with
      | file c => rfl
      | dir sym es =>
          cases q with
          | nil => simp [diverges] at h
          | cons b q2 =>
              by_cases hmb : m = b
              · subst hmb
                simp [diverges] at h
                cases hl : lookupEntry es m with
                | none => simp [setEntryAt, hl]
                | some c =>
                    simp [setEntryAt, hl, Node.get, lookupEntry_insertEntry]
                    exact ih c q2 h
              · cases hl : lookupEntry es m with
                | none => simp [setEntryAt, hl]
                | some c =>
                    simp [setEntryAt, hl, Node.get, lookupEntry_insertEntry, hmb]

theorem get_createDirAll_of_diverges (fs fs2 : Node) (p q : Path)
    (hc : createDirAll fs p = some fs2) (h : diverges p q = true) :
    fs2.get q = fs.get q := by
  induction p generalizing fs fs2 q with
  | nil => simp [diverges] at h
  | cons n p ih =>
      cases fs with
      | file c => simp [createDirAll] at hc
      | dir sym es =>
          cases q with
          | nil => simp [diverges] at h
          | cons b q2 =>
              by_cases hv : validName n
              · simp only [createDirAll, hv, if_true] at hc
                by_cases hnb : n = b
                · subst hnb
                  simp [diverges] at h
                  cases hl : lookupEntry es n with
                  | none =>
                      simp only [hl] at hc
                      cases hc2 : createDirAll (.dir false []) p with
                      | none => simp [hc2] at hc
                      | some c2 =>
                          simp only [hc2] at hc
                          cases hc
                          simp [Node.get, lookupEntry_insertEntry, hl]
                          have := ih (.dir false []) c2 q2 hc2 h
                          simp [Node.get] at this
                          cases p with
                          | nil => simp [diverges] at h
                          | cons m p2 =>
                              cases q2 with
                              | nil => simp [diverges] at h
                              | cons b2 q3 => simp [Node.get] at this ⊢; exact this
                  | some c =>
                      simp only [hl] at hc
                      cases hc2 : createDirAll c p with
                      | none => simp [hc2] at hc
                      | some c2 =>
                          simp only [hc2] at hc
                          cases hc
                          simp [Node.get, lookupEntry_insertEntry, hl]
                          exact ih c c2 q2 hc2 h
                · cases hl : lookupEntry es n with
                  | none =>
                      simp only [hl] at hc
                      cases hc2 : createDirAll (.dir false []) p with
                      | none => simp [hc2] at hc
                      | some c2 =>
                          simp only [hc2] at hc
                          cases hc
                          simp [Node.get, lookupEntry_insertEntry, hnb]
                  | some c =>
                      simp only [hl] at hc
                      cases hc2 : createDirAll c p with
                      | none => simp [hc2] at hc
                      | some c2 =>
                          simp only [hc2] at hc
                          cases hc
                          simp [Node.get, lookupEntry_insertEntry, hnb]
              · simp [createDirAll, hv] at hc

theorem get_setFile_of_diverges (fs fs2 : Node) (p q : Path) (c : String)
    (hc : setFile fs p c = some fs2) (h : diverges p q = true) :
    fs2.get q = fs.get q := by
  induction p generalizing fs fs2 q with
  | nil => simp [diverges] at h
  | cons n p ih =>
      cases fs with
      | file w => simp [setFile] at hc
      | dir sym es =>
          cases q with
          | nil => simp [diverges] at h
          | cons b q2 =>
              cases p with
              | nil =>
                  have hnb : n ≠ b := by
                    by_cases hx : n = b
                    · subst hx; simp [diverges] at h
                    · exact hx
                  by_cases hv : validName n
                  · simp only [setFile, hv, if_true] at hc
                    cases hl : lookupEntry es n with
                    | none =>
                        simp only [hl] at hc
                        cases hc
                        simp [Node.get, lookupEntry_insertEntry, hnb]
                    | some w =>
                        cases w with
                        | file w2 =>
                            simp only [hl] at hc
                            cases hc
                            simp [Node.get, lookupEntry_insertEntry, hnb]
                        | dir s2 es2 => simp [hl] at hc
                  · simp [setFile, hv] at hc
              | cons m p2 =>
                  cases hl : lookupEntry es n with
                  | none => simp [setFile, hl] at hc
                  | some ch =>
                      simp only [setFile, hl] at hc
                      cases hc2 : setFile ch (m :: p2) c with
                      | none => simp [hc2] at hc
                      | some ch2 =>
                          simp only [hc2] at hc
                          cases hc
                          by_cases hnb : n = b
                          · subst hnb
                            simp [diverges] at h
                            simp [Node.get, lookupEntry_insertEntry, hl]
                            exact ih ch ch2 q2 hc2 h
                          · simp [Node.get, lookupEntry_insertEntry, hnb]

/-!
## Shape lemmas for the primitives
-/

theorem get_setSub_of_get (fs : Node) (p : Path) (w v : Node)
    (h : fs.get p = some w) : (setSub fs p v).get p = some v := by
  induction p generalizing fs with
  | nil => simp [setSub, Node.get]
  | cons n p ih =>
      cases fs with
      | file c => simp [Node.get] at h
      | dir sym es =>
          simp only [Node.get] at h
          cases hl : lookupEntry es n with
          | none => simp [hl] at h
          | some ch =>
              simp only [hl] at h
              simp [setSub, hl, Node.get, lookupEntry_insertEntry]
              exact ih ch h

theorem setSub_setSub (fs : Node) (p : Path) (v w : Node) :
    setSub (setSub fs p v) p w = setSub fs p w := by
  induction p generalizing fs with
  | nil => simp [setSub]
  | cons n p ih =>
      cases fs with
      | file c => simp [setSub]
      | dir sym es =>
          cases hl : lookupEntry es n with
          | none => simp [setSub, hl]
          | some ch =>
              simp [setSub, hl, lookupEntry_insertEntry, insertEntry_insertEntry, ih]

theorem setSub_self (fs : Node) (p : Path) (w : Node) (h : fs.get p = some w) :
    setSub fs p w = fs := by
  induction p generalizing fs with
  | nil => simp [Node.get] at h; simp [setSub, h]
  | cons n p ih =>
      cases fs with
      | file c => simp [Node.get] at h
      | dir sym es =>
          simp only [Node.get] at h
          cases hl : lookupEntry es n with
          | none => simp [hl] at h
          | some ch =>
              simp only [hl] at h
              simp [setSub, hl, ih ch h, insertEntry_lookup_self es n ch hl]

theorem setSub_append (fs : Node) (p q : Path) (w v : Node) (h : fs.get p = some w) :
    setSub fs (p ++ q) v = setSub fs p (setSub w q v) := by
  induction p generalizing fs with
  | nil =>
      simp only [Node.get, Option.some_inj] at h
      cases h
      simp [setSub]
  | cons n p ih =>
      cases fs with
      | file c => simp [setSub]
      | dir sym es =>
          simp only [Node.get] at h
          cases hl : lookupEntry es n with
          | none => simp [hl] at h
          | some ch =>
              simp only [hl] at h
              show setSub (Node.dir sym es) (n :: (p ++ q)) v = _
              simp only [setSub, hl, List.append_eq]
              rw [ih ch h]

theorem setEntryAt_eq_setSub (fs : Node) (p : Path) (n : String) (v : Node)
    (s : Bool) (es : List (String × Node)) (h : fs.get p = some (.dir s es)) :
    setEntryAt fs p n v = setSub fs p (.dir s (insertEntry es n v)) := by
  induction p generalizing fs with
  | nil => simp [Node.get] at h; cases h; simp [setEntryAt, setSub]
  | cons m p ih =>
      cases fs with
      | file c => simp [Node.get] at h
      | dir s2 es2 =>
          simp only [Node.get] at h
          cases hl : lookupEntry es2 m with
          | none => simp [hl] at h
          | some ch =>
              simp only [hl] at h
              simp [setEntryAt, setSub, hl, ih ch h]

theorem createDirAll_valid (fs fs2 : Node) (p : Path)
    (hc : createDirAll fs p = some fs2) : p.all (fun c => validName c) = true := by
  induction p generalizing fs fs2 with
  | nil => simp
  | cons n p ih =>
      cases fs with
      | file c => simp [createDirAll] at hc
      | dir sym es =>
          by_cases hv : validName n
          · simp only [createDirAll, hv, if_true] at hc
            cases hl : lookupEntry es n with
            | none =>
                simp only [hl] at hc
                cases hc2 : createDirAll (.dir false []) p with
                | none => simp [hc2] at hc
                | some c2 => simp [List.all, hv, ih _ _ hc2]
            | some ch =>
                simp only [hl] at hc
                cases hc2 : createDirAll ch p with
                | none => simp [hc2] at hc
                | some c2 => simp [List.all, hv, ih _ _ hc2]
          · simp [createDirAll, hv] at hc

theorem createDirAll_get_of_none (fs fs2 : Node) (p : Path)
    (hc : createDirAll fs p = some fs2) (h : fs.get p = none) :
    fs2.get p = some (.dir false []) := by
  induction p generalizing fs fs2 with
  | nil =>
      cases fs with
      | file c => simp [createDirAll] at hc
      | dir sym es => simp [Node.get] at h
  | cons n p ih =>
      cases fs with
      | file c => simp [createDirAll] at hc
      | dir sym es =>
          by_cases hv : validName n
          · simp only [createDirAll, hv, if_true] at hc
            cases hl : lookupEntry es n with
            | none =>
                simp only [hl] at hc
                cases hc2 : createDirAll (.dir false []) p with
                | none => simp [hc2] at hc
                | some c2 =>
                    simp only [hc2] at hc
                    cases hc
                    have hno : (Node.dir false []).get p = none ∨ p = [] := by
                      cases p with
                      | nil => exact Or.inr rfl
                      | cons m p2 => exact Or.inl (by simp [Node.get, lookupEntry])
                    simp [Node.get, lookupEntry_insertEntry, hl]
                    rcases hno with hno | hno
                    · exact ih _ _ hc2 hno
                    · subst hno
                      simp [createDirAll] at hc2
                      cases hc2
                      simp [Node.get]
            | some ch =>
                simp only [hl] at hc
                cases hc2 : createDirAll ch p with
                | none => simp [hc2] at hc
                | some c2 =>
                    simp only [hc2] at hc
                    cases hc
                    simp only [Node.get, hl] at h
                    simp [Node.get, lookupEntry_insertEntry, hl]
                    exact ih _ _ hc2 h
          · simp [createDirAll, hv] at hc

theorem createDirAll_get_of_some (fs fs2 : Node) (p : Path) (w : Node)
    (hc : createDirAll fs p = some fs2) (h : fs.get p = some w) :
    fs2.get p = some w ∧ ∃ s es, w = .dir s es := by
  induction p generalizing fs fs2 with
  | nil =>
      cases fs with
      | file c => simp [createDirAll] at hc
      | dir sym es =>
          simp only [Node.get] at h
          cases h
          simp only [createDirAll] at hc
          cases hc
          exact ⟨rfl, sym, es, rfl⟩
  | cons n p ih =>
      cases fs with
      | file c => simp [createDirAll] at hc
      | dir sym es =>
          by_cases hv : validName n
          · simp only [createDirAll, hv, if_true] at hc
            simp only [Node.get] at h
            cases hl : lookupEntry es n with
            | none => simp [hl] at h
            | some ch =>
                simp only [hl] at h
                simp only [hl] at hc
                cases hc2 : createDirAll ch p with
                | none => simp [hc2] at hc
                | some c2 =>
                    simp only [hc2] at hc
                    cases hc
                    have := ih ch c2 hc2 h
                    simpa [Node.get, lookupEntry_insertEntry] using this
          · simp [createDirAll, hv] at hc

theorem createDirAll_append (fs : Node) (p q : Path) (w : Node)
    (h : fs.get p = some w) (hval : p.all (fun c => validName c) = true) :
    createDirAll fs (p ++ q) = Option.map (setSub fs p) (createDirAll w q) := by
  induction p generalizing fs with
  | nil =>
      have hw : w = fs := by simpa [Node.get] using h.symm
      subst hw
      simp only [List.nil_append]
      cases hc : createDirAll w q with
      | none => simp [hc]
      | some fs2 => simp [hc, setSub]
  | cons n p ih =>
      cases fs with
      | file c => simp [Node.get] at h
      | dir sym es =>
          simp only [Node.get] at h
          simp only [List.all_cons, Bool.and_eq_true] at hval
          cases hl : lookupEntry es n with
          | none => simp [hl] at h
          | some ch =>
              simp only [hl] at h
              show createDirAll (Node.dir sym es) (n :: (p ++ q)) = _
              simp only [createDirAll, hval.1, if_true, hl, List.append_eq]
              rw [ih ch h hval.2]
              cases hc : createDirAll w q with
              | none => simp [hc]
              | some c2 =>
                  simp [hc, setSub, hl]

theorem createDirAll_noop (fs : Node) (p : Path) (s : Bool) (es : List (String × Node))
    (h : fs.get p = some (.dir s es)) (hval : p.all (fun c => validName c) = true) :
    createDirAll fs p = some fs := by
  have h2 := createDirAll_append fs p [] (.dir s es) h hval
  simp only [List.append_nil, createDirAll] at h2
  rw [h2]
  simp [setSub_self fs p _ h]

theorem createDirAll_last (fs fs2 : Node) (par : Path) (n : String)
    (hc : createDirAll fs (par ++ [n]) = some fs2) (h : fs.get (par ++ [n]) = none) :
    ∃ s front, fs2.get par = some (.dir s (front ++ [(n, .dir false [])])) ∧
      lookupEntry front n = none := by
  induction par generalizing fs fs2 with
  | nil =>
      cases fs with
      | file c => simp [createDirAll] at hc
      | dir sym es =>
          by_cases hv : validName n
          · simp only [List.nil_append, createDirAll, hv, if_true] at hc
            simp only [List.nil_append, Node.get] at h
            cases hl : lookupEntry es n with
            | none =>
                simp only [hl, createDirAll] at hc
                cases hc
                refine ⟨sym, es, ?_, hl⟩
                simp [Node.get, insertEntry_of_lookup_none es n _ hl]
            | some ch => simp [hl] at h
          · simp [createDirAll, hv] at hc
  | cons m par ih =>
      cases fs with
      | file c => simp [createDirAll] at hc
      | dir sym es =>
          by_cases hv : validName m
          · have hc2 : createDirAll (Node.dir sym es) (m :: (par ++ [n])) = some fs2 := hc
            simp only [createDirAll, hv, if_true] at hc2
            cases hl : lookupEntry es m with
            | none =>
                simp only [hl, List.append_eq] at hc2
                cases hc3 : createDirAll (.dir false []) (par ++ [n]) with
                | none => simp [hc3] at hc2
                | some c2 =>
                    simp only [hc3] at hc2
                    cases hc2
                    have hn : (Node.dir false []).get (par ++ [n]) = none := by
                      cases par with
                      | nil => simp [Node.get, lookupEntry]
                      | cons a b => simp [Node.get, lookupEntry]
                    obtain ⟨s, front, hg, hfr⟩ := ih _ _ hc3 hn
                    exact ⟨s, front, by simp [Node.get, lookupEntry_insertEntry, hg], hfr⟩
            | some ch =>
                simp only [hl, List.append_eq] at hc2
                cases hc3 : createDirAll ch (par ++ [n]) with
                | none => simp [hc3] at hc2
                | some c2 =>
                    simp only [hc3] at hc2
                    cases hc2
                    have h2 : ch.get (par ++ [n]) = none := by
                      have h3 : (Node.dir sym es).get (m :: (par ++ [n])) = none := h
                      simpa [Node.get, hl] using h3
                    obtain ⟨s, front, hg, hfr⟩ := ih _ _ hc3 h2
                    exact ⟨s, front, by simp [Node.get, lookupEntry_insertEntry, hg], hfr⟩
          · simp [createDirAll, hv] at hc

theorem setFile_append (fs : Node) (p q : Path) (w : Node) (c : String)
    (h : fs.get p = some w) (hq : q ≠ []) :
    setFile fs (p ++ q) c = Option.map (setSub fs p) (setFile w q c) := by
  induction p generalizing fs with
  | nil =>
      have hw : w = fs := by simpa [Node.get] using h.symm
      subst hw
      simp only [List.nil_append]
      cases hc : setFile w q c with
      | none => simp [hc]
      | some fs2 => simp [hc, setSub]
  | cons n p ih =>
      cases fs with
      | file c2 => simp [Node.get] at h
      | dir sym es =>
          simp only [Node.get] at h
          cases hl : lookupEntry es n with
          | none => simp [hl] at h
          | some ch =>
              simp only [hl] at h
              have hshape : ∃ m q2, p ++ q = m :: q2 := by
                cases p with
                | nil =>
                    cases q with
                    | nil => exact absurd rfl hq
                    | cons a b => exact ⟨a, b, rfl⟩
                | cons a b => exact ⟨a, b ++ q, rfl⟩
              obtain ⟨m, q2, hmq⟩ := hshape
              show setFile (Node.dir sym es) (n :: (p ++ q)) c = _
              rw [hmq]
              simp only [setFile, hl]
              rw [← hmq, ih ch h]
              cases hc : setFile w q c with
              | none => simp [hc]
              | some w2 => simp [hc, setSub, hl]

theorem setFile_none_of_get_dir (fs : Node) (p : Path) (s : Bool)
    (es : List (String × Node)) (c : String) (h : fs.get p = some (.dir s es)) :
    setFile fs p c = none := by
  induction p generalizing fs with
  | nil => simp [setFile]
  | cons n p ih =>
      cases fs with
      | file c2 => simp [setFile]
      | dir s2 es2 =>
          simp only [Node.get] at h
          cases hl : lookupEntry es2 n with
          | none =>
              simp [hl] at h
          | some ch =>
              simp only [hl] at h
              cases p with
              | nil =>
                  simp only [Node.get] at h
                  cases h
                  simp [setFile, hl]
              | cons m p2 =>
                  simp [setFile, hl, ih ch h]

theorem get_removePath_self (fs : Node) (p : Path) (hd : isDir fs p = true)
    (hp : p ≠ []) : (removePath fs p).get p = none := by
  induction p generalizing fs with
  | nil => exact absurd rfl hp
  | cons n p ih =>
      cases fs with
      | file c =>
          simp [isDir, Node.get] at hd
      | dir sym es =>
          cases p with
          | nil =>
              simp [removePath, Node.get, lookupEntry_eraseEntry]
          | cons m p2 =>
              simp only [isDir, Node.get] at hd
              cases hl : lookupEntry es n with
              | none => simp [hl] at hd
              | some ch =>
                  simp only [hl] at hd
                  have hd2 : isDir ch (m :: p2) = true := by
                    simp only [isDir]
                    cases hg : ch.get (m :: p2) with
                    | none => simp [hg] at hd
                    | some w => cases w <;> simp [hg] at hd ⊢
                  simp [removePath, hl, Node.get, lookupEntry_insertEntry]
                  exact ih ch hd2 (by simp)

theorem get_wipeIfDir_self (fs : Node) (p : Path) (hp : p ≠ []) :
    (wipeIfDir fs p).get p =
      match fs.get p with
      | some (.dir _ _) => none
      | x => x := by
  by_cases hd : isDir fs p
  · simp only [wipeIfDir, hd, if_true]
    rw [get_removePath_self fs p hd hp]
    simp only [isDir] at hd
    cases hg : fs.get p with
    | none => simp [hg] at hd
    | some w => cases w <;> simp [hg] at hd ⊢
  · simp only [wipeIfDir, hd, if_false]
    simp only [isDir] at hd
    cases hg : fs.get p with
    | none => exact hg
    | some w =>
        cases w with
        | file c => exact hg
        | dir s es => rw [hg] at hd; simp at hd

theorem setSub_last_at (fs : Node) (par : Path) (n : String) (v ch : Node) (s : Bool)
    (es : List (String × Node)) (h : fs.get par = some (.dir s es))
    (hl : lookupEntry es n = some ch) :
    setSub fs (par ++ [n]) v = setSub fs par (.dir s (insertEntry es n v)) := by
  rw [setSub_append fs par [n] _ v h]
  simp [setSub, hl]

theorem createDirAll_none_of_file (fs : Node) (p : Path) (c : String)
    (h : fs.get p = some (.file c)) : createDirAll fs p = none := by
  induction p generalizing fs with
  | nil =>
      have : fs = .file c := by simpa [Node.get] using h
      subst this
      rfl
  | cons n p ih =>
      cases fs with
      | file c2 => rfl
      | dir sym es =>
          simp only [Node.get] at h
          cases hl : lookupEntry es n with
          | none => simp [hl] at h
          | some ch =>
              simp only [hl] at h
              by_cases hv : validName n
              · simp [createDirAll, hv, hl, ih ch h]
              · simp [createDirAll, hv]

theorem allFiles_insert (es : List (String × Node)) (n : String) (c : String)
    (h : AllFiles es) : AllFiles (insertEntry es n (.file c)) := by
  induction es with
  | nil =>
      intro e he
      simp [insertEntry] at he
      subst he
      exact ⟨c, rfl⟩
  | cons e2 rest ih =>
      obtain ⟨a, w⟩ := e2
      intro e he
      by_cases han : a = n
      · subst han
        simp only [insertEntry, if_true] at he
        rcases List.mem_cons.mp he with he | he
        · subst he; exact ⟨c, rfl⟩
        · exact h e (List.mem_cons_of_mem _ he)
      · simp only [insertEntry, han, if_false] at he
        rcases List.mem_cons.mp he with he | he
        · subst he; exact h (a, w) (List.mem_cons_self _ _)
        · exact ih (fun e2 he2 => h e2 (List.mem_cons_of_mem _ he2)) e he

theorem allFiles_lookup_not_dir (es : List (String × Node)) (n : String)
    (h : AllFiles es) :
    lookupEntry es n = none ∨ ∃ c, lookupEntry es n = some (.file c) := by
  induction es with
  | nil => exact Or.inl rfl
  | cons e rest ih =>
      obtain ⟨a, w⟩ := e
      by_cases han : a = n
      · subst han
        obtain ⟨c, hc⟩ := h (a, w) (List.mem_cons_self _ _)
        simp only at hc
        subst hc
        exact Or.inr ⟨c, by simp [lookupEntry]⟩
      · have := ih (fun e2 he2 => h e2 (List.mem_cons_of_mem _ he2))
        simpa [lookupEntry, han] using this

/-!
## Characterization of the artifact-installer phases

A successful run is fully determined by the view of the build-output
subtree: each phase rebuilds its destination subtree as `setSub` surgery on
the state the (re)created destination directory had.
-/

theorem copyBinaries_ok_names (srcDir destDir : Path) (fs out : Node)
    (bins : List Product) (h : copyBinaries srcDir destDir fs bins = .ok out) :
    ∀ b ∈ bins, b.name ≠ none := by
  induction bins generalizing fs with
  | nil => intro b hb; simp at hb
  | cons b rest ih =>
      intro b2 hb2
      cases hn : b.name with
      | none => simp [copyBinaries, hn] at h
      | some name =>
          simp only [copyBinaries, hn] at h
          cases hc : createDirAll fs destDir with
          | none => simp [hc] at h
          | some fs2 =>
              simp only [hc] at h
              cases hf : fsCopy fs2 (srcDir ++ strToPath name) (destDir ++ strToPath name) with
              | none => simp [hf] at h
              | some fs3 =>
                  simp only [hf] at h
                  rcases List.mem_cons.mp hb2 with hb2 | hb2
                  · subst hb2; simp [hn]
                  · exact ih fs3 h b2 hb2

theorem copyBinaries_char (srcDir L : Path) (v : Option Node) (fsc out : Node)
    (bins : List Product) (acc : List (String × Node))
    (hfsc : fsc.get L = some (.dir false []))
    (hLval : L.all (fun c => validName c) = true)
    (hsrc : ∀ r, fsc.get (srcDir ++ r) = viewGet v r)
    (hdiv : diverges L srcDir = true)
    (hacc : AllFiles acc)
    (hrun : copyBinaries srcDir L (setSub fsc L (.dir false acc)) bins = .ok out) :
    out = setSub fsc L (.dir false (binEntries v bins acc)) ∧
      AllFiles (binEntries v bins acc) := by
  induction bins generalizing acc with
  | nil =>
      simp only [copyBinaries] at hrun
      refine ⟨?_, by simpa [binEntries] using hacc⟩
      simp only [binEntries]
      have h2 := hrun
      simp only [Except.ok.injEq] at h2
      exact h2.symm
  | cons b rest ih =>
      cases hn : b.name with
      | none => simp [copyBinaries, hn] at hrun
      | some name =>
          simp only [copyBinaries, hn] at hrun
          have hgetL : (setSub fsc L (.dir false acc)).get L = some (.dir false acc) :=
            get_setSub_of_get fsc L _ _ hfsc
          have hcda : createDirAll (setSub fsc L (.dir false acc)) L =
              some (setSub fsc L (.dir false acc)) :=
            createDirAll_noop _ L false acc hgetL hLval
          simp only [hcda] at hrun
          have hsrcget : (setSub fsc L (.dir false acc)).get (srcDir ++ strToPath name) =
              viewGet v (strToPath name) := by
            rw [get_setSub_of_diverges _ _ _ _ (diverges_append_right _ _ _ hdiv)]
            exact hsrc _
          cases hview : viewGet v (strToPath name) with
          | none =>
              rw [hview] at hsrcget
              simp [fsCopy, hsrcget] at hrun
          | some w =>
              rw [hview] at hsrcget
              cases w with
              | dir s2 es2 => simp [fsCopy, hsrcget] at hrun
              | file c =>
                  cases hP : strToPath name with
                  | nil =>
                      rw [hP] at hsrcget hrun
                      simp only [List.append_nil] at hsrcget
                      have hnone : fsCopy (setSub fsc L (.dir false acc))
                          (srcDir ++ ([] : Path)) (L ++ ([] : Path)) = none := by
                        simp only [fsCopy, List.append_nil, hsrcget]
                        exact setFile_none_of_get_dir _ L false acc c hgetL
                      rw [hnone] at hrun
                      simp at hrun
                  | cons n P2 =>
                      cases P2 with
                      | nil =>
                          rw [hP] at hsrcget hrun
                          have hsf : setFile (setSub fsc L (.dir false acc)) (L ++ [n]) c =
                              Option.map (setSub (setSub fsc L (.dir false acc)) L)
                                (setFile (.dir false acc) [n] c) :=
                            setFile_append _ L [n] _ c hgetL (by simp)
                          by_cases hv : validName n
                          · have hinner : setFile (Node.dir false acc) [n] c =
                                some (.dir false (insertEntry acc n (.file c))) := by
                              rcases allFiles_lookup_not_dir acc n hacc with hl | ⟨c2, hl⟩ <;>
                                simp [setFile, hv, hl]
                            have hstep : fsCopy (setSub fsc L (.dir false acc))
                                (srcDir ++ [n]) (L ++ [n]) =
                                some (setSub fsc L (.dir false (insertEntry acc n (.file c)))) := by
                              simp only [fsCopy, hsrcget]
                              rw [hsf, hinner]
                              simp [setSub_setSub]
                            rw [hstep] at hrun
                            simp only at hrun
                            have := ih (insertEntry acc n (.file c))
                              (allFiles_insert acc n c hacc) hrun
                            rw [hP] at hview
                            simpa [binEntries, hn, hP, hview] using this
                          · have hinner : setFile (Node.dir false acc) [n] c = none := by
                              simp [setFile, hv]
                            have hstep : fsCopy (setSub fsc L (.dir false acc))
                                (srcDir ++ [n]) (L ++ [n]) = none := by
                              simp only [fsCopy, hsrcget]
                              rw [hsf, hinner]
                              rfl
                            rw [hstep] at hrun
                            simp at hrun
                      | cons m P3 =>
                          rw [hP] at hsrcget hrun
                          have hinner : setFile (Node.dir false acc) (n :: m :: P3) c = none := by
                            rcases allFiles_lookup_not_dir acc n hacc with hl | ⟨c2, hl⟩
                            · simp [setFile, hl]
                            · simp [setFile, hl]
                          have hstep : fsCopy (setSub fsc L (.dir false acc))
                              (srcDir ++ (n :: m :: P3)) (L ++ (n :: m :: P3)) = none := by
                            simp only [fsCopy, hsrcget]
                            rw [setFile_append _ L (n :: m :: P3) _ c hgetL (by simp), hinner]
                            rfl
                          rw [hstep] at hrun
                          simp at hrun

theorem copyLibraries_skip (srcDir destDir : Path) (pkg : String) (fs : Node)
    (combos : List (String × String))
    (h : ∀ pc ∈ combos, isFile fs (srcDir ++ [pc.1 ++ pkg ++ "." ++ pc.2]) = false) :
    copyLibraries srcDir destDir pkg fs combos = .ok (fs, []) := by
  induction combos with
  | nil => rfl
  | cons pc rest ih =>
      obtain ⟨pre, suf⟩ := pc
      have hhead := h (pre, suf) (List.mem_cons_self _ _)
      simp only at hhead
      simp only [copyLibraries, hhead, Bool.false_eq_true, if_false]
      exact ih (fun pc2 hpc2 => h pc2 (List.mem_cons_of_mem _ hpc2))

theorem copyLibraries_char (srcDir L : Path) (pkg : String) (v : Option Node)
    (fsc out : Node) (combos : List (String × String)) (acc : List (String × Node))
    (libs : List String)
    (hfsc : fsc.get L = some (.dir false []))
    (hLval : L.all (fun c => validName c) = true)
    (hsrc : ∀ r, fsc.get (srcDir ++ r) = viewGet v r)
    (hdiv : diverges L srcDir = true)
    (hacc : AllFiles acc)
    (hrun : copyLibraries srcDir L pkg (setSub fsc L (.dir false acc)) combos =
      .ok (out, libs)) :
    out = setSub fsc L (.dir false (libEntries v pkg combos acc)) ∧
      libs = libsOfList v pkg combos ∧ AllFiles (libEntries v pkg combos acc) := by
  induction combos generalizing acc libs with
  | nil =>
      simp only [copyLibraries, Except.ok.injEq, Prod.mk.injEq] at hrun
      exact ⟨hrun.1.symm, hrun.2.symm, by simpa [libEntries] using hacc⟩
  | cons pc rest ih =>
      obtain ⟨pre, suf⟩ := pc
      have hgetL : (setSub fsc L (.dir false acc)).get L = some (.dir false acc) :=
        get_setSub_of_get fsc L _ _ hfsc
      have hsrcget : (setSub fsc L (.dir false acc)).get
          (srcDir ++ [pre ++ pkg ++ "." ++ suf]) = viewGet v [pre ++ pkg ++ "." ++ suf] := by
        rw [get_setSub_of_diverges _ _ _ _ (diverges_append_right _ _ _ hdiv)]
        exact hsrc _
      have hisf : isFile (setSub fsc L (.dir false acc))
          (srcDir ++ [pre ++ pkg ++ "." ++ suf]) =
          (match viewGet v [pre ++ pkg ++ "." ++ suf] with
           | some (.file _) => true
           | _ => false) := by
        simp only [isFile, hsrcget]
      cases hview : viewGet v [pre ++ pkg ++ "." ++ suf] with
      | none =>
          rw [hview] at hisf hsrcget
          simp only [copyLibraries, hisf, Bool.false_eq_true, if_false] at hrun
          have := ih acc libs hacc hrun
          simpa [libEntries, libsOfList, hview] using this
      | some w =>
          rw [hview] at hisf hsrcget
          cases w with
          | dir s2 es2 =>
              simp only [copyLibraries, hisf, Bool.false_eq_true, if_false] at hrun
              have := ih acc libs hacc hrun
              simpa [libEntries, libsOfList, hview] using this
          | file c =>
              simp only [copyLibraries, hisf, if_true] at hrun
              have hcda : createDirAll (setSub fsc L (.dir false acc)) L =
                  some (setSub fsc L (.dir false acc)) :=
                createDirAll_noop _ L false acc hgetL hLval
              simp only [hcda] at hrun
              have hsf : setFile (setSub fsc L (.dir false acc))
                  (L ++ [pre ++ pkg ++ "." ++ suf]) c =
                  Option.map (setSub (setSub fsc L (.dir false acc)) L)
                    (setFile (.dir false acc) [pre ++ pkg ++ "." ++ suf] c) :=
                setFile_append _ L [pre ++ pkg ++ "." ++ suf] _ c hgetL (by simp)
              by_cases hv : validName (pre ++ pkg ++ "." ++ suf)
              · have hinner : setFile (Node.dir false acc) [pre ++ pkg ++ "." ++ suf] c =
                    some (.dir false (insertEntry acc (pre ++ pkg ++ "." ++ suf) (.file c))) := by
                  rcases allFiles_lookup_not_dir acc (pre ++ pkg ++ "." ++ suf) hacc with
                    hl | ⟨c2, hl⟩ <;> simp [setFile, hv, hl]
                have hstep : fsCopy (setSub fsc L (.dir false acc))
                    (srcDir ++ [pre ++ pkg ++ "." ++ suf]) (L ++ [pre ++ pkg ++ "." ++ suf]) =
                    some (setSub fsc L
                      (.dir false (insertEntry acc (pre ++ pkg ++ "." ++ suf) (.file c)))) := by
                  simp only [fsCopy, hsrcget]
                  rw [hsf, hinner]
                  simp [setSub_setSub]
                rw [hstep] at hrun
                simp only at hrun
                cases hrest : copyLibraries srcDir L pkg
                    (setSub fsc L (.dir false (insertEntry acc (pre ++ pkg ++ "." ++ suf)
                      (.file c)))) rest with
                | error e => rw [hrest] at hrun; simp at hrun
                | ok pr =>
                    obtain ⟨out2, libs2⟩ := pr
                    rw [hrest] at hrun
                    simp only [Except.ok.injEq, Prod.mk.injEq] at hrun
                    obtain ⟨hout, hlibs⟩ := hrun
                    subst hout
                    have := ih (insertEntry acc (pre ++ pkg ++ "." ++ suf) (.file c)) libs2
                      (allFiles_insert acc _ c hacc) hrest
                    refine ⟨?_, ?_, ?_⟩
                    · rw [this.1]
                      simp [libEntries, hview]
                    · rw [← hlibs, this.2.1]
                      simp [libsOfList, hview]
                    · have h3 := this.2.2
                      simpa [libEntries, hview] using h3
              · have hinner : setFile (Node.dir false acc) [pre ++ pkg ++ "." ++ suf] c =
                    none := by simp [setFile, hv]
                have hstep : fsCopy (setSub fsc L (.dir false acc))
                    (srcDir ++ [pre ++ pkg ++ "." ++ suf]) (L ++ [pre ++ pkg ++ "." ++ suf]) =
                    none := by
                  simp only [fsCopy, hsrcget]
                  rw [hsf, hinner]
                  rfl
                rw [hstep] at hrun
                simp at hrun

theorem copyLibraries_charA (srcDir L : Path) (pkg : String) (v : Option Node)
    (fs0 out : Node) (combos : List (String × String)) (libs : List String)
    (h0 : fs0.get L = none)
    (hsrc0 : ∀ r, fs0.get (srcDir ++ r) = viewGet v r)
    (hdiv : diverges L srcDir = true)
    (hrun : copyLibraries srcDir L pkg fs0 combos = .ok (out, libs)) :
    libs = libsOfList v pkg combos ∧
      ((libsOfList v pkg combos = [] ∧ out = fs0) ∨
        (libsOfList v pkg combos ≠ [] ∧
          ∃ fsc, createDirAll fs0 L = some fsc ∧ fsc.get L = some (.dir false []) ∧
            out = setSub fsc L (.dir false (libEntries v pkg combos [])))) := by
  induction combos generalizing libs with
  | nil =>
      simp only [copyLibraries, Except.ok.injEq, Prod.mk.injEq] at hrun
      exact ⟨hrun.2.symm, Or.inl ⟨rfl, hrun.1.symm⟩⟩
  | cons pc rest ih =>
      obtain ⟨pre, suf⟩ := pc
      have hsrcget : fs0.get (srcDir ++ [pre ++ pkg ++ "." ++ suf]) =
          viewGet v [pre ++ pkg ++ "." ++ suf] := hsrc0 _
      cases hview : viewGet v [pre ++ pkg ++ "." ++ suf] with
      | none =>
          rw [hview] at hsrcget
          have hisf : isFile fs0 (srcDir ++ [pre ++ pkg ++ "." ++ suf]) = false := by
            simp [isFile, hsrcget]
          simp only [copyLibraries, hisf, Bool.false_eq_true, if_false] at hrun
          have := ih libs hrun
          simpa [libEntries, libsOfList, hview] using this
      | some w =>
          rw [hview] at hsrcget
          cases w with
          | dir s2 es2 =>
              have hisf : isFile fs0 (srcDir ++ [pre ++ pkg ++ "." ++ suf]) = false := by
                simp [isFile, hsrcget]
              simp only [copyLibraries, hisf, Bool.false_eq_true, if_false] at hrun
              have := ih libs hrun
              simpa [libEntries, libsOfList, hview] using this
          | file c =>
              have hisf : isFile fs0 (srcDir ++ [pre ++ pkg ++ "." ++ suf]) = true := by
                simp [isFile, hsrcget]
              simp only [copyLibraries, hisf, if_true] at hrun
              cases hcda : createDirAll fs0 L with
              | none => rw [hcda] at hrun; simp at hrun
              | some fsc =>
                  rw [hcda] at hrun
                  simp only at hrun
                  have hfsc : fsc.get L = some (.dir false []) :=
                    createDirAll_get_of_none fs0 fsc L hcda h0
                  have hLval := createDirAll_valid fs0 fsc L hcda
                  have hsrcc : ∀ r, fsc.get (srcDir ++ r) = viewGet v r := by
                    intro r
                    rw [get_createDirAll_of_diverges fs0 fsc L (srcDir ++ r) hcda
                      (diverges_append_right _ _ _ hdiv)]
                    exact hsrc0 r
                  have hsrcget2 : fsc.get (srcDir ++ [pre ++ pkg ++ "." ++ suf]) =
                      some (.file c) := by rw [hsrcc]; exact hview
                  have hsf : setFile fsc (L ++ [pre ++ pkg ++ "." ++ suf]) c =
                      Option.map (setSub fsc L)
                        (setFile (.dir false []) [pre ++ pkg ++ "." ++ suf] c) :=
                    setFile_append fsc L [pre ++ pkg ++ "." ++ suf] _ c hfsc (by simp)
                  by_cases hv : validName (pre ++ pkg ++ "." ++ suf)
                  · have hinner : setFile (Node.dir false ([] : List (String × Node)))
                        [pre ++ pkg ++ "." ++ suf] c =
                        some (.dir false [(pre ++ pkg ++ "." ++ suf, .file c)]) := by
                      simp [setFile, hv, lookupEntry, insertEntry]
                    have hstep : fsCopy fsc (srcDir ++ [pre ++ pkg ++ "." ++ suf])
                        (L ++ [pre ++ pkg ++ "." ++ suf]) =
                        some (setSub fsc L (.dir false [(pre ++ pkg ++ "." ++ suf, .file c)])) := by
                      simp only [fsCopy, hsrcget2]
                      rw [hsf, hinner]
                      rfl
                    rw [hstep] at hrun
                    simp only at hrun
                    cases hrest : copyLibraries srcDir L pkg
                        (setSub fsc L (.dir false [(pre ++ pkg ++ "." ++ suf, .file c)])) rest with
                    | error e => rw [hrest] at hrun; simp at hrun
                    | ok pr =>
                        obtain ⟨out2, libs2⟩ := pr
                        rw [hrest] at hrun
                        simp only [Except.ok.injEq, Prod.mk.injEq] at hrun
                        obtain ⟨hout, hlibs⟩ := hrun
                        rw [hout] at hrest
                        have hch := copyLibraries_char srcDir L pkg v fsc out rest
                          [(pre ++ pkg ++ "." ++ suf, .file c)] libs2 hfsc hLval hsrcc hdiv
                          (by intro e he; simp at he; subst he; exact ⟨c, rfl⟩) hrest
                        refine ⟨?_, Or.inr ⟨by simp [libsOfList, hview], fsc, ?_, ?_, ?_⟩⟩
                        · rw [← hlibs, hch.2.1]
                          simp [libsOfList, hview]
                        · rfl
                        · exact hfsc
                        · rw [hch.1]
                          simp only [libEntries, hview]
                          have : insertEntry ([] : List (String × Node))
                              (pre ++ pkg ++ "." ++ suf) (.file c) =
                              [(pre ++ pkg ++ "." ++ suf, .file c)] := rfl
                          rw [this]
                  · have hinner : setFile (Node.dir false ([] : List (String × Node)))
                        [pre ++ pkg ++ "." ++ suf] c = none := by
                      simp [setFile, hv]
                    have hstep : fsCopy fsc (srcDir ++ [pre ++ pkg ++ "." ++ suf])
                        (L ++ [pre ++ pkg ++ "." ++ suf]) = none := by
                      simp only [fsCopy, hsrcget2]
                      rw [hsf, hinner]
                      rfl
                    rw [hstep] at hrun
                    simp at hrun

theorem get_append_viewGet (fs : Node) (p r : Path) :
    fs.get (p ++ r) = viewGet (fs.get p) r := by
  rw [Node.get_append]
  cases fs.get p <;> rfl

theorem copyBinaries_charA (srcDir L : Path) (v : Option Node) (fs0 mid : Node)
    (bins : List Product)
    (h0 : fs0.get L = none)
    (hsrc0 : ∀ r, fs0.get (srcDir ++ r) = viewGet v r)
    (hdiv : diverges L srcDir = true)
    (hrun : copyBinaries srcDir L fs0 bins = .ok mid) :
    (bins = [] ∧ mid = fs0) ∨
      (bins ≠ [] ∧ ∃ fsc, createDirAll fs0 L = some fsc ∧
        fsc.get L = some (.dir false []) ∧
        mid = setSub fsc L (.dir false (binEntries v bins [])) ∧
        AllFiles (binEntries v bins [])) := by
  cases bins with
  | nil =>
      simp only [copyBinaries, Except.ok.injEq] at hrun
      exact Or.inl ⟨rfl, hrun.symm⟩
  | cons b rest =>
      refine Or.inr ⟨by simp, ?_⟩
      cases hn : b.name with
      | none => simp [copyBinaries, hn] at hrun
      | some name =>
          simp only [copyBinaries, hn] at hrun
          cases hcda : createDirAll fs0 L with
          | none => rw [hcda] at hrun; simp at hrun
          | some fsc =>
              rw [hcda] at hrun
              simp only at hrun
              have hfsc : fsc.get L = some (.dir false []) :=
                createDirAll_get_of_none fs0 fsc L hcda h0
              have hLval := createDirAll_valid fs0 fsc L hcda
              have hsrcc : ∀ r, fsc.get (srcDir ++ r) = viewGet v r := by
                intro r
                rw [get_createDirAll_of_diverges fs0 fsc L (srcDir ++ r) hcda
                  (diverges_append_right _ _ _ hdiv)]
                exact hsrc0 r
              have hsrcget : fsc.get (srcDir ++ strToPath name) =
                  viewGet v (strToPath name) := hsrcc _
              cases hview : viewGet v (strToPath name) with
              | none =>
                  rw [hview] at hsrcget
                  simp [fsCopy, hsrcget] at hrun
              | some w =>
                  rw [hview] at hsrcget
                  cases w with
                  | dir s2 es2 => simp [fsCopy, hsrcget] at hrun
                  | file c =>
                      cases hP : strToPath name with
                      | nil =>
                          rw [hP] at hsrcget hrun
                          simp only [List.append_nil] at hsrcget
                          have hnone : fsCopy fsc (srcDir ++ ([] : Path))
                              (L ++ ([] : Path)) = none := by
                            simp only [fsCopy, List.append_nil, hsrcget]
                            exact setFile_none_of_get_dir fsc L false [] c hfsc
                          rw [hnone] at hrun
                          simp at hrun
                      | cons n P2 =>
                          cases P2 with
                          | nil =>
                              rw [hP] at hsrcget hrun
                              have hsf : setFile fsc (L ++ [n]) c =
                                  Option.map (setSub fsc L)
                                    (setFile (.dir false []) [n] c) :=
                                setFile_append fsc L [n] _ c hfsc (by simp)
                              by_cases hv : validName n
                              · have hinner : setFile
                                    (Node.dir false ([] : List (String × Node))) [n] c =
                                    some (.dir false [(n, .file c)]) := by
                                  simp [setFile, hv, lookupEntry, insertEntry]
                                have hstep : fsCopy fsc (srcDir ++ [n]) (L ++ [n]) =
                                    some (setSub fsc L (.dir false [(n, .file c)])) := by
                                  simp only [fsCopy, hsrcget]
                                  rw [hsf, hinner]
                                  rfl
                                rw [hstep] at hrun
                                simp only at hrun
                                have hone : AllFiles [(n, Node.file c)] := by
                                  intro e he
                                  simp at he
                                  subst he
                                  exact ⟨c, rfl⟩
                                have hch := copyBinaries_char srcDir L v fsc mid rest
                                  [(n, .file c)] hfsc hLval hsrcc hdiv hone hrun
                                rw [hP] at hview
                                refine ⟨fsc, rfl, hfsc, ?_, ?_⟩
                                · rw [hch.1]
                                  simp [binEntries, hn, hP, hview, insertEntry]
                                · have h3 := hch.2
                                  simp only [binEntries, hn, hP, hview] at h3 ⊢
                                  simpa [insertEntry] using h3
                              · have hinner : setFile
                                    (Node.dir false ([] : List (String × Node))) [n] c =
                                    none := by simp [setFile, hv]
                                have hstep : fsCopy fsc (srcDir ++ [n]) (L ++ [n]) =
                                    none := by
                                  simp only [fsCopy, hsrcget]
                                  rw [hsf, hinner]
                                  rfl
                                rw [hstep] at hrun
                                simp at hrun
                          | cons m P3 =>
                              rw [hP] at hsrcget hrun
                              have hinner : setFile
                                  (Node.dir false ([] : List (String × Node)))
                                  (n :: m :: P3) c = none := by
                                simp [setFile, lookupEntry]
                              have hstep : fsCopy fsc (srcDir ++ (n :: m :: P3))
                                  (L ++ (n :: m :: P3)) = none := by
                                simp only [fsCopy, hsrcget]
                                rw [setFile_append fsc L (n :: m :: P3) _ c hfsc (by simp),
                                  hinner]
                                rfl
                              rw [hstep] at hrun
                              simp at hrun

theorem copyBinaries_fileCase (srcDir L : Path) (fs0 mid : Node)
    (bins : List Product) (c0 : String)
    (h0 : fs0.get L = some (.file c0))
    (hrun : copyBinaries srcDir L fs0 bins = .ok mid) :
    bins = [] ∧ mid = fs0 := by
  cases bins with
  | nil =>
      simp only [copyBinaries, Except.ok.injEq] at hrun
      exact ⟨rfl, hrun.symm⟩
  | cons b rest =>
      cases hn : b.name with
      | none => simp [copyBinaries, hn] at hrun
      | some name =>
          simp only [copyBinaries, hn] at hrun
          rw [createDirAll_none_of_file fs0 L c0 h0] at hrun
          simp at hrun

theorem copyLibraries_fileCase (srcDir L : Path) (pkg : String) (v : Option Node)
    (fs0 out : Node) (combos : List (String × String)) (libs : List String) (c0 : String)
    (h0 : fs0.get L = some (.file c0))
    (hsrc0 : ∀ r, fs0.get (srcDir ++ r) = viewGet v r)
    (hrun : copyLibraries srcDir L pkg fs0 combos = .ok (out, libs)) :
    out = fs0 ∧ libs = [] ∧ libsOfList v pkg combos = [] := by
  induction combos generalizing libs with
  | nil =>
      simp only [copyLibraries, Except.ok.injEq, Prod.mk.injEq] at hrun
      exact ⟨hrun.1.symm, hrun.2.symm, rfl⟩
  | cons pc rest ih =>
      obtain ⟨pre, suf⟩ := pc
      have hsrcget : fs0.get (srcDir ++ [pre ++ pkg ++ "." ++ suf]) =
          viewGet v [pre ++ pkg ++ "." ++ suf] := hsrc0 _
      cases hview : viewGet v [pre ++ pkg ++ "." ++ suf] with
      | none =>
          rw [hview] at hsrcget
          have hisf : isFile fs0 (srcDir ++ [pre ++ pkg ++ "." ++ suf]) = false := by
            simp [isFile, hsrcget]
          simp only [copyLibraries, hisf, Bool.false_eq_true, if_false] at hrun
          have := ih libs hrun
          simpa [libsOfList, hview] using this
      | some w =>
          rw [hview] at hsrcget
          cases w with
          | dir s2 es2 =>
              have hisf : isFile fs0 (srcDir ++ [pre ++ pkg ++ "." ++ suf]) = false := by
                simp [isFile, hsrcget]
              simp only [copyLibraries, hisf, Bool.false_eq_true, if_false] at hrun
              have := ih libs hrun
              simpa [libsOfList, hview] using this
          | file c =>
              have hisf : isFile fs0 (srcDir ++ [pre ++ pkg ++ "." ++ suf]) = true := by
                simp [isFile, hsrcget]
              simp only [copyLibraries, hisf, if_true] at hrun
              rw [createDirAll_none_of_file fs0 L c0 h0] at hrun
              simp at hrun

theorem libGroup_char (srcDir L : Path) (pkg : String) (fs mid out : Node)
    (bins : List Product) (libs : List String)
    (hLne : L ≠ [])
    (hdiv : diverges L srcDir = true)
    (h1 : copyBinaries srcDir L (wipeIfDir fs L) bins = .ok mid)
    (h2 : copyLibraries srcDir L pkg mid prefixSuffixCombinations = .ok (out, libs)) :
    libs = libsOf (fs.get srcDir) pkg ∧
      (libWrites (fs.get srcDir) pkg bins = true →
        ∃ fsc, createDirAll (wipeIfDir fs L) L = some fsc ∧
          fsc.get L = some (.dir false []) ∧
          out = setSub fsc L (.dir false (builtLibEntries (fs.get srcDir) pkg bins))) ∧
      (libWrites (fs.get srcDir) pkg bins = false → out = wipeIfDir fs L) := by
  have hsrc0 : ∀ r, (wipeIfDir fs L).get (srcDir ++ r) = viewGet (fs.get srcDir) r := by
    intro r
    rw [get_wipeIfDir_of_diverges fs L (srcDir ++ r) (diverges_append_right _ _ _ hdiv)]
    exact get_append_viewGet fs srcDir r
  have hslot := get_wipeIfDir_self fs L hLne
  have hcases : (wipeIfDir fs L).get L = none ∨
      ∃ c, (wipeIfDir fs L).get L = some (.file c) := by
    rw [hslot]
    cases fs.get L with
    | none => exact Or.inl rfl
    | some w =>
        cases w with
        | file c => exact Or.inr ⟨c, rfl⟩
        | dir s es => exact Or.inl rfl
  rcases hcases with h0 | ⟨c0, h0⟩
  · rcases copyBinaries_charA srcDir L (fs.get srcDir) (wipeIfDir fs L) mid bins h0
        hsrc0 hdiv h1 with ⟨hbe, hmid⟩ | ⟨hbne, fsc, hcda, hfsc, hmid, hAF⟩
    · subst hmid
      rcases copyLibraries_charA srcDir L pkg (fs.get srcDir) (wipeIfDir fs L) out
          prefixSuffixCombinations libs h0 hsrc0 hdiv h2 with ⟨hlibs, hdisj⟩
      refine ⟨hlibs, ?_, ?_⟩
      · intro hw
        rcases hdisj with ⟨hnil, hout⟩ | ⟨hne, fsc, hcda, hfsc, hout⟩
        · exfalso
          rw [libWrites, hbe] at hw
          simp [libsOf, hnil] at hw
        · refine ⟨fsc, hcda, hfsc, ?_⟩
          rw [hout]
          subst hbe
          simp [builtLibEntries, binEntries]
      · intro hw
        rcases hdisj with ⟨hnil, hout⟩ | ⟨hne, fsc, hcda, hfsc, hout⟩
        · exact hout
        · exfalso
          rw [libWrites, hbe] at hw
          rcases hx : libsOfList (fs.get srcDir) pkg prefixSuffixCombinations with _ | ⟨a, b⟩
          · exact hne hx
          · rw [libsOf, hx] at hw
            simp at hw
    · have hLval := createDirAll_valid _ fsc L hcda
      have hsrcc : ∀ r, fsc.get (srcDir ++ r) = viewGet (fs.get srcDir) r := by
        intro r
        rw [get_createDirAll_of_diverges _ fsc L (srcDir ++ r) hcda
          (diverges_append_right _ _ _ hdiv)]
        exact hsrc0 r
      subst hmid
      have hch := copyLibraries_char srcDir L pkg (fs.get srcDir) fsc out
        prefixSuffixCombinations (binEntries (fs.get srcDir) bins []) libs hfsc hLval
        hsrcc hdiv hAF h2
      refine ⟨by rw [hch.2.1]; rfl, ?_, ?_⟩
      · intro hw
        exact ⟨fsc, hcda, hfsc, hch.1⟩
      · intro hw
        exfalso
        rw [libWrites] at hw
        cases bins with
        | nil => exact hbne rfl
        | cons b rest => simp at hw
  · have hbf := copyBinaries_fileCase srcDir L (wipeIfDir fs L) mid bins c0 h0 h1
    obtain ⟨hbe, hmid⟩ := hbf
    subst hmid
    have hfc := copyLibraries_fileCase srcDir L pkg (fs.get srcDir) (wipeIfDir fs L) out
      prefixSuffixCombinations libs c0 h0 hsrc0 h2
    refine ⟨by rw [hfc.2.1, libsOf, hfc.2.2], ?_, ?_⟩
    · intro hw
      exfalso
      rw [libWrites, hbe] at hw
      simp [libsOf, hfc.2.2] at hw
    · intro hw
      exact hfc.1

theorem viewGet_append (v : Option Node) (r q : Path) :
    viewGet v (r ++ q) = viewGet (viewGet v r) q := by
  cases v with
  | none => rfl
  | some nd =>
      simp only [viewGet]
      rw [Node.get_append]
      cases nd.get r <;> rfl

theorem findRoots_eq_relRoots (fs : Node) (srcDir : Path) (marker : String) :
    findRoots fs srcDir marker =
      (relRoots (fs.get srcDir) marker).map (fun r => srcDir ++ r) := by
  cases hg : fs.get srcDir with
  | none => simp [findRoots, relRoots, hg]
  | some w =>
      cases w with
      | file c => simp [findRoots, relRoots, hg, findMarkersNode]
      | dir s es => simp [findRoots, relRoots, hg]

theorem mergeEntries_char (srcDir I : Path) (r : Path) (marker : String)
    (v : Option Node) (fsc : Node) (acc es : List (String × Node))
    (iter : List (String × Node)) (sN : Bool)
    (hIfsc : fsc.get I = some (.dir false []))
    (hsrc : ∀ acc2 q, (setSub fsc I (.dir false acc2)).get (srcDir ++ q) = viewGet v q)
    (hv : viewGet v r = some (.dir sN es)) :
    mergeEntries (srcDir ++ r) I marker (setSub fsc I (.dir false acc)) iter =
      setSub fsc I (.dir false (mergeEntriesPure es marker acc iter)) := by
  induction iter generalizing acc with
  | nil => simp [mergeEntries, mergeEntriesPure]
  | cons e iter ih =>
      obtain ⟨n, w⟩ := e
      by_cases hnm : n = marker
      · simp only [mergeEntries, mergeEntriesPure, hnm, if_true]
        exact ih acc
      · simp only [mergeEntries, mergeEntriesPure, hnm, if_false]
        have hsrcn : (setSub fsc I (.dir false acc)).get ((srcDir ++ r) ++ [n]) =
            viewGet (some (.dir sN es)) [n] := by
          rw [List.append_assoc]
          rw [hsrc acc (r ++ [n])]
          rw [viewGet_append, hv]
        have hlookup : viewGet (some (Node.dir sN es)) [n] = lookupEntry es n := by
          simp [viewGet, Node.get]
          cases lookupEntry es n <;> simp [Node.get]
        rw [hlookup] at hsrcn
        cases hl : lookupEntry es n with
        | none =>
            rw [hl] at hsrcn
            have hcp : cpInto (setSub fsc I (.dir false acc)) ((srcDir ++ r) ++ [n]) I n =
                setSub fsc I (.dir false acc) := by
              simp only [cpInto, hsrcn]
            rw [hcp]
            exact ih acc
        | some s =>
            rw [hl] at hsrcn
            have hgetI : (setSub fsc I (.dir false acc)).get I =
                some (.dir false acc) := get_setSub_of_get fsc I _ _ hIfsc
            have hgetIn : (setSub fsc I (.dir false acc)).get (I ++ [n]) =
                lookupEntry acc n := by
              rw [get_append_viewGet]
              rw [hgetI]
              simp [viewGet, Node.get]
              cases lookupEntry acc n <;> simp [Node.get]
            have hcp : cpInto (setSub fsc I (.dir false acc)) ((srcDir ++ r) ++ [n]) I n =
                setSub fsc I (.dir false
                  (insertEntry acc n (mergeNode (lookupEntry acc n) s))) := by
              simp only [cpInto, hsrcn, hgetI, hgetIn]
              rw [setEntryAt_eq_setSub _ I n _ false acc hgetI]
              rw [setSub_setSub]
            rw [hcp]
            exact ih (insertEntry acc n (mergeNode (lookupEntry acc n) s))

theorem mergeRoots_char (srcDir I : Path) (marker : String) (v : Option Node)
    (fsc out : Node) (acc : List (String × Node)) (rels : List Path)
    (hIfsc : fsc.get I = some (.dir false []))
    (hsrc : ∀ acc2 q, (setSub fsc I (.dir false acc2)).get (srcDir ++ q) = viewGet v q)
    (hrun : mergeRoots I marker (setSub fsc I (.dir false acc))
      (rels.map (fun r => srcDir ++ r)) = .ok out) :
    out = setSub fsc I (.dir false (mergedOf v marker acc rels)) := by
  induction rels generalizing acc with
  | nil =>
      simp only [List.map_nil, mergeRoots, Except.ok.injEq] at hrun
      simp [mergedOf, hrun.symm]
  | cons r rest ih =>
      simp only [List.map_cons, mergeRoots] at hrun
      have hget : (setSub fsc I (.dir false acc)).get (srcDir ++ r) = viewGet v r :=
        hsrc acc r
      cases hv : viewGet v r with
      | none => rw [hv] at hget; rw [hget] at hrun; simp at hrun
      | some w =>
          rw [hv] at hget
          cases w with
          | file c => rw [hget] at hrun; simp at hrun
          | dir sN es =>
              rw [hget] at hrun
              simp only at hrun
              rw [mergeEntries_char srcDir I r marker v fsc acc es es sN hIfsc hsrc hv]
                at hrun
              have := ih (mergeEntriesPure es marker acc es) hrun
              rw [this]
              simp only [mergedOf, entriesAt, hv]

theorem includePhase_char (srcDir I : Path) (v : Option Node)
    (fs3 out : Node) (rels : List Path)
    (hIne : I ≠ [])
    (hdivI : diverges I srcDir = true)
    (hsrc3 : ∀ q, fs3.get (srcDir ++ q) = viewGet v q)
    (hrun : includePhase I (rels.map (fun r => srcDir ++ r)) fs3 = .ok out) :
    (rels = [] → out = fs3) ∧
      (rels ≠ [] → ∃ fsc, createDirAll (wipeIfDir fs3 I) I = some fsc ∧
        fsc.get I = some (.dir false []) ∧
        out = setSub fsc I (.dir false (mergedOf v rosIncludeMarker [] rels))) := by
  cases rels with
  | nil =>
      simp only [List.map_nil, includePhase, List.isEmpty_nil, if_true,
        Except.ok.injEq] at hrun
      exact ⟨fun _ => hrun.symm, fun h => absurd rfl h⟩
  | cons r rest =>
      refine ⟨fun h => by simp at h, fun _ => ?_⟩
      simp only [List.map_cons, includePhase, List.isEmpty_cons, if_false] at hrun
      cases hcda : createDirAll (wipeIfDir fs3 I) I with
      | none => rw [hcda] at hrun; simp at hrun
      | some fsc =>
          rw [hcda] at hrun
          simp only at hrun
          have h0 : (wipeIfDir fs3 I).get I = none := by
            have hslot := get_wipeIfDir_self fs3 I hIne
            cases hg : fs3.get I with
            | none => rw [hg] at hslot; exact hslot
            | some w =>
                cases w with
                | dir s es => rw [hg] at hslot; exact hslot
                | file c =>
                    rw [hg] at hslot
                    exact absurd hcda (by
                      rw [createDirAll_none_of_file (wipeIfDir fs3 I) I c hslot]
                      simp)
          have hIfsc : fsc.get I = some (.dir false []) :=
            createDirAll_get_of_none _ fsc I hcda h0
          have hsrcc : ∀ q, fsc.get (srcDir ++ q) = viewGet v q := by
            intro q
            rw [get_createDirAll_of_diverges _ fsc I (srcDir ++ q) hcda
              (diverges_append_right _ _ _ hdivI)]
            rw [get_wipeIfDir_of_diverges fs3 I (srcDir ++ q)
              (diverges_append_right _ _ _ hdivI)]
            exact hsrc3 q
          have hsrcs : ∀ acc2 q, (setSub fsc I (.dir false acc2)).get (srcDir ++ q) =
              viewGet v q := by
            intro acc2 q
            rw [get_setSub_of_diverges _ _ _ _ (diverges_append_right _ _ _ hdivI)]
            exact hsrcc q
          have hstart : fsc = setSub fsc I (.dir false []) :=
            (setSub_self fsc I _ hIfsc).symm
          rw [hstart] at hrun
          have := mergeRoots_char srcDir I rosIncludeMarker v fsc out [] (r :: rest)
            hIfsc hsrcs hrun
          exact ⟨fsc, rfl, hIfsc, this⟩

theorem cmakePhase_char (C : Path) (pkg : String) (libs : List String) (hinc : Bool)
    (fs4 out : Node) (hCne : C ≠ [])
    (hrun : cmakePhase C pkg libs hinc fs4 = .ok out) :
    ∃ fsc, createDirAll (wipeIfDir fs4 C) C = some fsc ∧
      fsc.get C = some (.dir false []) ∧
      out = setSub fsc C (.dir false
        [(pkg ++ "Config.cmake", .file (cmakeConfigText pkg libs hinc))]) := by
  simp only [cmakePhase] at hrun
  cases hcda : createDirAll (wipeIfDir fs4 C) C with
  | none => rw [hcda] at hrun; simp at hrun
  | some fsc =>
      rw [hcda] at hrun
      simp only at hrun
      have h0 : (wipeIfDir fs4 C).get C = none := by
        have hslot := get_wipeIfDir_self fs4 C hCne
        cases hg : fs4.get C with
        | none => rw [hg] at hslot; exact hslot
        | some w =>
            cases w with
            | dir s es => rw [hg] at hslot; exact hslot
            | file c =>
                rw [hg] at hslot
                exact absurd hcda (by
                  rw [createDirAll_none_of_file (wipeIfDir fs4 C) C c hslot]
                  simp)
      have hCfsc : fsc.get C = some (.dir false []) :=
        createDirAll_get_of_none _ fsc C hcda h0
      have hsf : setFile fsc (C ++ [pkg ++ "Config.cmake"])
          (cmakeConfigText pkg libs hinc) =
          Option.map (setSub fsc C)
            (setFile (.dir false []) [pkg ++ "Config.cmake"]
              (cmakeConfigText pkg libs hinc)) :=
        setFile_append fsc C [pkg ++ "Config.cmake"] _ _ hCfsc (by simp)
      by_cases hv : validName (pkg ++ "Config.cmake")
      · have hinner : setFile (Node.dir false ([] : List (String × Node)))
            [pkg ++ "Config.cmake"] (cmakeConfigText pkg libs hinc) =
            some (.dir false [(pkg ++ "Config.cmake",
              .file (cmakeConfigText pkg libs hinc))]) := by
          simp [setFile, hv, lookupEntry, insertEntry]
        rw [hsf, hinner] at hrun
        simp only [Option.map] at hrun
        refine ⟨fsc, rfl, hCfsc, ?_⟩
        simp only [Except.ok.injEq] at hrun
        exact hrun.symm
      · have hinner : setFile (Node.dir false ([] : List (String × Node)))
            [pkg ++ "Config.cmake"] (cmakeConfigText pkg libs hinc) = none := by
          simp [setFile, hv]
        rw [hsf, hinner] at hrun
        simp at hrun

theorem viewGet_nil (v : Option Node) : viewGet v [] = v := by
  cases v with
  | none => rfl
  | some nd => cases nd <;> rfl

theorem isEmpty_map (f : Path → Path) (l : List Path) :
    (l.map f).isEmpty = l.isEmpty := by
  cases l <;> simp

theorem installBinaries_char (fs g : Node) (iB bB : Path) (pkg profile : String)
    (bins : List Product)
    (hd1 : diverges (libDest iB pkg) (bB ++ strToPath profile) = true)
    (hd2 : diverges (includeDest iB pkg) (bB ++ strToPath profile) = true)
    (hrun : installBinaries fs iB bB pkg profile bins = .ok g) :
    ∃ mid1 mid2,
      ((libWrites (fs.get (bB ++ strToPath profile)) pkg bins = true ∧
        ∃ fsc1, createDirAll (wipeIfDir fs (libDest iB pkg)) (libDest iB pkg) = some fsc1 ∧
          fsc1.get (libDest iB pkg) = some (.dir false []) ∧
          mid1 = setSub fsc1 (libDest iB pkg)
            (.dir false (builtLibEntries (fs.get (bB ++ strToPath profile)) pkg bins))) ∨
       (libWrites (fs.get (bB ++ strToPath profile)) pkg bins = false ∧
        mid1 = wipeIfDir fs (libDest iB pkg))) ∧
      ((relRoots (fs.get (bB ++ strToPath profile)) rosIncludeMarker = [] ∧ mid2 = mid1) ∨
       (relRoots (fs.get (bB ++ strToPath profile)) rosIncludeMarker ≠ [] ∧
        ∃ fsc2, createDirAll (wipeIfDir mid1 (includeDest iB pkg)) (includeDest iB pkg) =
            some fsc2 ∧
          fsc2.get (includeDest iB pkg) = some (.dir false []) ∧
          mid2 = setSub fsc2 (includeDest iB pkg)
            (.dir false (mergedOf (fs.get (bB ++ strToPath profile)) rosIncludeMarker []
              (relRoots (fs.get (bB ++ strToPath profile)) rosIncludeMarker))))) ∧
      (∃ fsc3, createDirAll (wipeIfDir mid2 (cmakeDest iB pkg)) (cmakeDest iB pkg) =
          some fsc3 ∧
        fsc3.get (cmakeDest iB pkg) = some (.dir false []) ∧
        g = setSub fsc3 (cmakeDest iB pkg)
          (.dir false [(pkg ++ "Config.cmake",
            .file (cmakeConfigText pkg (libsOf (fs.get (bB ++ strToPath profile)) pkg)
              (!(relRoots (fs.get (bB ++ strToPath profile)) rosIncludeMarker).isEmpty)))])) := by
  simp only [installBinaries, Bind.bind, Except.bind] at hrun
  cases h1 : copyBinaries (bB ++ strToPath profile) (libDest iB pkg)
      (wipeIfDir fs (libDest iB pkg)) bins with
  | error e => rw [h1] at hrun; simp at hrun
  | ok mid =>
      rw [h1] at hrun
      simp only at hrun
      cases h2 : copyLibraries (bB ++ strToPath profile) (libDest iB pkg) pkg mid
          prefixSuffixCombinations with
      | error e => rw [h2] at hrun; simp at hrun
      | ok pr =>
          obtain ⟨mid1, libs⟩ := pr
          rw [h2] at hrun
          simp only at hrun
          have hLne : libDest iB pkg ≠ [] := by simp [libDest]
          have hIne : includeDest iB pkg ≠ [] := by simp [includeDest]
          have hCne : cmakeDest iB pkg ≠ [] := by simp [cmakeDest]
          have hlg := libGroup_char (bB ++ strToPath profile) (libDest iB pkg) pkg fs mid
            mid1 bins libs hLne hd1 h1 h2
          obtain ⟨hlibs, hw1, hw0⟩ := hlg
          have hmid1src : ∀ q, mid1.get ((bB ++ strToPath profile) ++ q) =
              viewGet (fs.get (bB ++ strToPath profile)) q := by
            intro q
            cases hlw : libWrites (fs.get (bB ++ strToPath profile)) pkg bins with
            | true =>
                obtain ⟨fsc1, hcda1, hfsc1, hm⟩ := hw1 hlw
                rw [hm]
                rw [get_setSub_of_diverges _ _ _ _ (diverges_append_right _ _ _ hd1)]
                rw [get_createDirAll_of_diverges _ fsc1 _ _ hcda1
                  (diverges_append_right _ _ _ hd1)]
                rw [get_wipeIfDir_of_diverges fs _ _ (diverges_append_right _ _ _ hd1)]
                exact get_append_viewGet fs _ q
            | false =>
                rw [hw0 hlw]
                rw [get_wipeIfDir_of_diverges fs _ _ (diverges_append_right _ _ _ hd1)]
                exact get_append_viewGet fs _ q
          have hmid1top : mid1.get (bB ++ strToPath profile) =
              fs.get (bB ++ strToPath profile) := by
            have := hmid1src []
            rw [List.append_nil] at this
            rw [this, viewGet_nil]
          have hroots : findRoots mid1 (bB ++ strToPath profile) rosIncludeMarker =
              (relRoots (fs.get (bB ++ strToPath profile)) rosIncludeMarker).map
                (fun r => (bB ++ strToPath profile) ++ r) := by
            rw [findRoots_eq_relRoots, hmid1top]
          rw [hroots] at hrun
          cases h3 : includePhase (includeDest iB pkg)
              ((relRoots (fs.get (bB ++ strToPath profile)) rosIncludeMarker).map
                (fun r => (bB ++ strToPath profile) ++ r)) mid1 with
          | error e => rw [h3] at hrun; simp at hrun
          | ok mid2 =>
              rw [h3] at hrun
              simp only at hrun
              have hic := includePhase_char (bB ++ strToPath profile) (includeDest iB pkg)
                (fs.get (bB ++ strToPath profile)) mid1 mid2
                (relRoots (fs.get (bB ++ strToPath profile)) rosIncludeMarker)
                hIne hd2 hmid1src h3
              have hcm := cmakePhase_char (cmakeDest iB pkg) pkg libs
                (!((relRoots (fs.get (bB ++ strToPath profile))
                  rosIncludeMarker).map (fun r => (bB ++ strToPath profile) ++ r)).isEmpty)
                mid2 g hCne hrun
              refine ⟨mid1, mid2, ?_, ?_, ?_⟩
              · cases hlw : libWrites (fs.get (bB ++ strToPath profile)) pkg bins with
                | true => exact Or.inl ⟨rfl, hw1 hlw⟩
                | false => exact Or.inr ⟨rfl, hw0 hlw⟩
              · cases hrel : relRoots (fs.get (bB ++ strToPath profile)) rosIncludeMarker with
                | nil => exact Or.inl ⟨rfl, hic.1 hrel⟩
                | cons a b =>
                    refine Or.inr ⟨by simp, ?_⟩
                    have h5 := hic.2 (by rw [hrel]; simp)
                    rw [hrel] at h5
                    exact h5
              · obtain ⟨fsc3, hcda3, hfsc3, hg⟩ := hcm
                refine ⟨fsc3, hcda3, hfsc3, ?_⟩
                rw [hg, hlibs]
                rw [isEmpty_map]

/-!
## Rebuilding in place is the identity

When a subtree already sits as the last entry of its parent (which is how a
successful run leaves every destination it wrote), wiping it, recreating the
directory and rebuilding the same contents gives back the very same tree.
This is the heart of the idempotence proof.
-/

theorem wipeIfDir_cons (s2 : Bool) (es2 : List (String × Node)) (m : String)
    (rest : Path) (ch : Node) (hl : lookupEntry es2 m = some ch) (hrest : rest ≠ []) :
    wipeIfDir (.dir s2 es2) (m :: rest) = .dir s2 (insertEntry es2 m (wipeIfDir ch rest)) := by
  have hgd : isDir (Node.dir s2 es2) (m :: rest) = isDir ch rest := by
    simp [isDir, Node.get, hl]
  by_cases hd : isDir ch rest
  · rw [wipeIfDir, hgd, if_pos hd]
    cases rest with
    | nil => exact absurd rfl hrest
    | cons a b =>
        simp [removePath, hl, wipeIfDir, hd]
  · rw [wipeIfDir, hgd, if_neg hd]
    rw [wipeIfDir, if_neg hd]
    rw [insertEntry_lookup_self es2 m ch hl]

theorem rebuild_eq_self (fs : Node) (par : Path) (n : String) (s : Bool)
    (front es0 : List (String × Node))
    (hget : fs.get par = some (.dir s (front ++ [(n, .dir false es0)])))
    (hfr : lookupEntry front n = none)
    (hval : ((par ++ [n]).all (fun c => validName c)) = true) :
    ∃ fsc, createDirAll (wipeIfDir fs (par ++ [n])) (par ++ [n]) = some fsc ∧
      fsc.get (par ++ [n]) = some (.dir false []) ∧
      setSub fsc (par ++ [n]) (.dir false es0) = fs := by
  induction par generalizing fs with
  | nil =>
      have hfs : fs = .dir s (front ++ [(n, .dir false es0)]) := by
        simpa [Node.get] using hget
      subst hfs
      simp only [List.nil_append, List.all_cons, List.all_nil, Bool.and_true] at hval
      simp only [List.nil_append]
      have hlk : lookupEntry (front ++ [(n, Node.dir false es0)]) n =
          some (.dir false es0) := by
        rw [lookupEntry_append_right front n _ hfr]
        simp [lookupEntry]
      have hwipe : wipeIfDir (Node.dir s (front ++ [(n, Node.dir false es0)])) [n] =
          .dir s front := by
        have hd : isDir (Node.dir s (front ++ [(n, Node.dir false es0)])) [n] = true := by
          simp [isDir, Node.get, hlk]
        rw [wipeIfDir, hd]
        simp only [if_true, removePath]
        rw [eraseEntry_append_last front n _ hfr]
      rw [hwipe]
      have hcda : createDirAll (Node.dir s front) [n] =
          some (.dir s (front ++ [(n, .dir false [])])) := by
        simp only [createDirAll, hval, if_true, hfr]
        rw [insertEntry_of_lookup_none front n _ hfr]
      refine ⟨.dir s (front ++ [(n, .dir false [])]), hcda, ?_, ?_⟩
      · simp only [Node.get]
        rw [lookupEntry_append_right front n _ hfr]
        simp [lookupEntry, Node.get]
      · have hlk2 : lookupEntry (front ++ [(n, Node.dir false [])]) n =
            some (.dir false []) := by
          rw [lookupEntry_append_right front n _ hfr]
          simp [lookupEntry]
        simp only [List.nil_append, setSub, hlk2]
        rw [insertEntry_append_last front n _ _ hfr]
  | cons m par ih =>
      cases fs with
      | file c => simp [Node.get] at hget
      | dir s2 es2 =>
          simp only [Node.get] at hget
          cases hl : lookupEntry es2 m with
          | none => simp [hl] at hget
          | some ch =>
              simp only [hl] at hget
              simp only [List.cons_append, List.all_cons, Bool.and_eq_true] at hval
              obtain ⟨fsc2, hcda2, hget2, hset2⟩ := ih ch hget hval.2
              have hwc : wipeIfDir (Node.dir s2 es2) (m :: (par ++ [n])) =
                  .dir s2 (insertEntry es2 m (wipeIfDir ch (par ++ [n]))) :=
                wipeIfDir_cons s2 es2 m (par ++ [n]) ch hl (by simp)
              have hcda : createDirAll (wipeIfDir (Node.dir s2 es2) (m :: (par ++ [n])))
                  (m :: (par ++ [n])) = some (.dir s2 (insertEntry es2 m fsc2)) := by
                rw [hwc]
                simp only [createDirAll, hval.1, if_true,
                  lookupEntry_insertEntry es2 m _ m, if_pos rfl, List.append_eq]
                rw [hcda2]
                simp [insertEntry_insertEntry]
              have hlk2 : lookupEntry (insertEntry es2 m fsc2) m = some fsc2 := by
                rw [lookupEntry_insertEntry]
                simp
              refine ⟨.dir s2 (insertEntry es2 m fsc2), by simpa using hcda, ?_, ?_⟩
              · simp only [Node.get, hlk2]
                exact hget2
              · show setSub (Node.dir s2 (insertEntry es2 m fsc2)) (m :: (par ++ [n])) _ =
                  _
                simp only [setSub, hlk2, List.append_eq]
                rw [insertEntry_insertEntry, hset2]
                rw [insertEntry_lookup_self es2 m ch hl]

theorem wipeIfDir_noop (fs : Node) (p : Path) (h : isDir fs p = false) :
    wipeIfDir fs p = fs := by
  simp [wipeIfDir, h]

theorem wipe_cda_get_none (fs fsc : Node) (p : Path) (hp : p ≠ [])
    (hcda : createDirAll (wipeIfDir fs p) p = some fsc) :
    (wipeIfDir fs p).get p = none := by
  have hslot := get_wipeIfDir_self fs p hp
  cases hg : fs.get p with
  | none => rw [hg] at hslot; exact hslot
  | some w =>
      cases w with
      | dir s es => rw [hg] at hslot; exact hslot
      | file c =>
          rw [hg] at hslot
          rw [createDirAll_none_of_file (wipeIfDir fs p) p c hslot] at hcda
          cases hcda

theorem setSub_parent_decomp (fsc : Node) (par : Path) (n : String) (v : Node)
    (s : Bool) (front : List (String × Node))
    (hpar : fsc.get par = some (.dir s (front ++ [(n, .dir false [])])))
    (hfr : lookupEntry front n = none) :
    (setSub fsc (par ++ [n]) v).get par = some (.dir s (front ++ [(n, v)])) := by
  have hlk : lookupEntry (front ++ [(n, Node.dir false [])]) n = some (.dir false []) := by
    rw [lookupEntry_append_right front n _ hfr]
    simp [lookupEntry]
  rw [setSub_append fsc par [n] _ v hpar]
  have hinner : setSub (Node.dir s (front ++ [(n, Node.dir false [])])) [n] v =
      .dir s (front ++ [(n, v)]) := by
    simp only [setSub, hlk]
    rw [insertEntry_append_last front n _ _ hfr]
  rw [hinner]
  exact get_setSub_of_get fsc par _ _ hpar

theorem built_last_decomp (x fsc out : Node) (par : Path) (n : String) (v0 : Node)
    (h0 : (wipeIfDir x (par ++ [n])).get (par ++ [n]) = none)
    (hcda : createDirAll (wipeIfDir x (par ++ [n])) (par ++ [n]) = some fsc)
    (hout : out = setSub fsc (par ++ [n]) v0) :
    ∃ s front, out.get par = some (.dir s (front ++ [(n, v0)])) ∧
      lookupEntry front n = none := by
  obtain ⟨s, front, hp, hfr⟩ := createDirAll_last _ fsc par n hcda h0
  exact ⟨s, front, by rw [hout]; exact setSub_parent_decomp fsc par n v0 s front hp hfr,
    hfr⟩

theorem rebuild_apply (g out2 fsc2 : Node) (par : Path) (n : String) (s : Bool)
    (front es0 : List (String × Node))
    (hget : g.get par = some (.dir s (front ++ [(n, .dir false es0)])))
    (hfr : lookupEntry front n = none)
    (hval : ((par ++ [n]).all (fun c => validName c)) = true)
    (hcda : createDirAll (wipeIfDir g (par ++ [n])) (par ++ [n]) = some fsc2)
    (hout : out2 = setSub fsc2 (par ++ [n]) (.dir false es0)) :
    out2 = g := by
  obtain ⟨fsc, hcda0, hget0, hset⟩ := rebuild_eq_self g par n s front es0 hget hfr hval
  rw [hcda] at hcda0
  have hfe : fsc2 = fsc := by
    injection hcda0
  subst hfe
  rw [hout, hset]

/-- C3: amended.  Idempotence of the artifact installer holds whenever the
three destination subtrees `lib/<pkg>`, `include/<pkg>` and
`share/<pkg>/cmake` diverge from the build-output subtree
`build_base/profile` (the installation does not feed back into what the next
run reads) and the package name is a non-trivial path: two successive
successful runs on unchanged inputs produce the same tree.  Without the
divergence requirement a second run can differ (`installBinaries_rerun_differs`:
an install base inside the build output makes the first run's merged include
tree be rediscovered as an include root by the second run). -/
theorem installBinaries_idem (fs g g2 : Node) (iB bB : Path) (pkg profile : String)
    (bins : List Product)
    (hd1 : diverges (libDest iB pkg) (bB ++ strToPath profile) = true)
    (hd2 : diverges (includeDest iB pkg) (bB ++ strToPath profile) = true)
    (hd3 : diverges (cmakeDest iB pkg) (bB ++ strToPath profile) = true)
    (hpkg : strToPath pkg ≠ [])
    (h1 : installBinaries fs iB bB pkg profile bins = .ok g)
    (h2 : installBinaries g iB bB pkg profile bins = .ok g2) :
    g2 = g := by
  obtain ⟨mid1, mid2, hlib, hinc, hcmk⟩ :=
    installBinaries_char fs g iB bB pkg profile bins hd1 hd2 h1
  obtain ⟨fsc3, hcda3, hfsc3, hg3⟩ := hcmk
  have hLform : libDest iB pkg = iB ++ "lib" :: strToPath pkg := by
    simp [libDest]
  have hIform : includeDest iB pkg = iB ++ "include" :: strToPath pkg := by
    simp [includeDest]
  have hCform : cmakeDest iB pkg = iB ++ "share" :: (strToPath pkg ++ ["cmake"]) := by
    simp [cmakeDest]
  have hframe_lib : ∀ x, diverges (libDest iB pkg) x = true →
      mid1.get x = fs.get x := by
    intro x hx
    rcases hlib with ⟨hw, fsc1, hcda1, hfsc1, hm⟩ | ⟨hw, hm⟩
    · rw [hm, get_setSub_of_diverges _ _ _ _ hx,
        get_createDirAll_of_diverges _ _ _ _ hcda1 hx,
        get_wipeIfDir_of_diverges _ _ _ hx]
    · rw [hm, get_wipeIfDir_of_diverges _ _ _ hx]
  have hframe_inc : ∀ x, diverges (includeDest iB pkg) x = true →
      mid2.get x = mid1.get x := by
    intro x hx
    rcases hinc with ⟨hrel, hm⟩ | ⟨hrel, fsc2, hcda2, hfsc2, hm⟩
    · rw [hm]
    · rw [hm, get_setSub_of_diverges _ _ _ _ hx,
        get_createDirAll_of_diverges _ _ _ _ hcda2 hx,
        get_wipeIfDir_of_diverges _ _ _ hx]
  have hframe_cmk : ∀ x, diverges (cmakeDest iB pkg) x = true →
      g.get x = mid2.get x := by
    intro x hx
    rw [hg3, get_setSub_of_diverges _ _ _ _ hx,
      get_createDirAll_of_diverges _ _ _ _ hcda3 hx,
      get_wipeIfDir_of_diverges _ _ _ hx]
  have hv2 : g.get (bB ++ strToPath profile) = fs.get (bB ++ strToPath profile) := by
    rw [hframe_cmk _ hd3, hframe_inc _ hd2, hframe_lib _ hd1]
  obtain ⟨mid1b, mid2b, hlib2, hinc2, hcmk2⟩ :=
    installBinaries_char g g2 iB bB pkg profile bins hd1 hd2 h2
  rw [hv2] at hlib2 hinc2 hcmk2
  obtain ⟨q, nl, hq2⟩ : ∃ q nl, strToPath pkg = q ++ [nl] := by
    rcases List.eq_nil_or_concat (strToPath pkg) with hnil | ⟨q, nl, hq⟩
    · exact absurd hnil hpkg
    · exact ⟨q, nl, by simpa [List.concat_eq_append] using hq⟩
  have hLpar : libDest iB pkg = (iB ++ ["lib"] ++ q) ++ [nl] := by
    simp [libDest, hq2]
  have hIpar : includeDest iB pkg = (iB ++ ["include"] ++ q) ++ [nl] := by
    simp [includeDest, hq2]
  have hCpar : cmakeDest iB pkg = (iB ++ ["share"] ++ strToPath pkg) ++ ["cmake"] := by
    simp [cmakeDest]
  have hparLform : iB ++ ["lib"] ++ q = iB ++ "lib" :: q := by simp
  have hparIform : iB ++ ["include"] ++ q = iB ++ "include" :: q := by simp
  have dIparL : diverges (includeDest iB pkg) (iB ++ ["lib"] ++ q) = true := by
    rw [hIform, hparLform]
    exact diverges_shared iB _ _ _ _ (by decide)
  have dCparL : diverges (cmakeDest iB pkg) (iB ++ ["lib"] ++ q) = true := by
    rw [hCform, hparLform]
    exact diverges_shared iB _ _ _ _ (by decide)
  have dCparI : diverges (cmakeDest iB pkg) (iB ++ ["include"] ++ q) = true := by
    rw [hCform, hparIform]
    exact diverges_shared iB _ _ _ _ (by decide)
  have dIL : diverges (includeDest iB pkg) (libDest iB pkg) = true := by
    rw [hIform, hLform]
    exact diverges_shared iB _ _ _ _ (by decide)
  have dCL : diverges (cmakeDest iB pkg) (libDest iB pkg) = true := by
    rw [hCform, hLform]
    exact diverges_shared iB _ _ _ _ (by decide)
  have hLne : libDest iB pkg ≠ [] := by simp [libDest]
  have hIne : includeDest iB pkg ≠ [] := by simp [includeDest]
  have hCne : cmakeDest iB pkg ≠ [] := by simp [cmakeDest]
  have hmid1b : mid1b = g := by
    rcases hlib2 with ⟨hw2, fsc1b, hcda1b, hfsc1b, hmb⟩ | ⟨hw2, hmb⟩
    · rcases hlib with ⟨hw, fsc1, hcda1, hfsc1, hm1⟩ | ⟨hw, hm1⟩
      · have h0 : (wipeIfDir fs (libDest iB pkg)).get (libDest iB pkg) = none :=
          wipe_cda_get_none fs fsc1 _ hLne hcda1
        obtain ⟨s, front, hmid1par, hfr⟩ := built_last_decomp fs fsc1 mid1
          (iB ++ ["lib"] ++ q) nl
          (.dir false (builtLibEntries (fs.get (bB ++ strToPath profile)) pkg bins))
          (by rw [← hLpar]; exact h0) (by rw [← hLpar]; exact hcda1)
          (by rw [← hLpar]; exact hm1)
        have hgpar : g.get (iB ++ ["lib"] ++ q) = mid1.get (iB ++ ["lib"] ++ q) := by
          rw [hframe_cmk _ dCparL, hframe_inc _ dIparL]
        rw [hmid1par] at hgpar
        have hval : (((iB ++ ["lib"] ++ q) ++ [nl]).all (fun c => validName c)) = true := by
          rw [← hLpar]
          exact createDirAll_valid _ _ _ hcda1
        exact rebuild_apply g mid1b fsc1b (iB ++ ["lib"] ++ q) nl s front _ hgpar hfr hval
          (by rw [← hLpar]; exact hcda1b) (by rw [← hLpar]; exact hmb)
      · rw [hw] at hw2
        cases hw2
    · rcases hlib with ⟨hw, fsc1, hcda1, hfsc1, hm1⟩ | ⟨hw, hm1⟩
      · rw [hw] at hw2
        cases hw2
      · have hgL : g.get (libDest iB pkg) =
            (wipeIfDir fs (libDest iB pkg)).get (libDest iB pkg) := by
          rw [hframe_cmk _ dCL, hframe_inc _ dIL, hm1]
        have hnotdir : isDir g (libDest iB pkg) = false := by
          simp only [isDir]
          rw [hgL, get_wipeIfDir_self fs _ hLne]
          cases hx : fs.get (libDest iB pkg) with
          | none => rfl
          | some w =>
              cases w with
              | file c => rfl
              | dir s es => rfl
        rw [hmb, wipeIfDir_noop g _ hnotdir]
  have hmid2b : mid2b = g := by
    rcases hinc2 with ⟨hrel2, hmb⟩ | ⟨hrel2, fsc2b, hcda2b, hfsc2b, hmb⟩
    · rw [hmb, hmid1b]
    · rcases hinc with ⟨hrel, hm⟩ | ⟨hrel, fsc2, hcda2, hfsc2, hm⟩
      · exact absurd hrel hrel2
      · have h0 : (wipeIfDir mid1 (includeDest iB pkg)).get (includeDest iB pkg) = none :=
          wipe_cda_get_none mid1 fsc2 _ hIne hcda2
        obtain ⟨s, front, hmid2par, hfr⟩ := built_last_decomp mid1 fsc2 mid2
          (iB ++ ["include"] ++ q) nl
          (.dir false (mergedOf (fs.get (bB ++ strToPath profile)) rosIncludeMarker []
            (relRoots (fs.get (bB ++ strToPath profile)) rosIncludeMarker)))
          (by rw [← hIpar]; exact h0) (by rw [← hIpar]; exact hcda2)
          (by rw [← hIpar]; exact hm)
        have hgpar : g.get (iB ++ ["include"] ++ q) = mid2.get (iB ++ ["include"] ++ q) :=
          hframe_cmk _ dCparI
        rw [hmid2par] at hgpar
        have hval : (((iB ++ ["include"] ++ q) ++ [nl]).all (fun c => validName c)) = true := by
          rw [← hIpar]
          exact createDirAll_valid _ _ _ hcda2
        rw [hmid1b] at hcda2b
        exact rebuild_apply g mid2b fsc2b (iB ++ ["include"] ++ q) nl s front _ hgpar hfr
          hval (by rw [← hIpar]; exact hcda2b) (by rw [← hIpar]; exact hmb)
  obtain ⟨fsc3b, hcda3b, hfsc3b, hg2b⟩ := hcmk2
  have h0 : (wipeIfDir mid2 (cmakeDest iB pkg)).get (cmakeDest iB pkg) = none :=
    wipe_cda_get_none mid2 fsc3 _ hCne hcda3
  obtain ⟨s, front, hgpar, hfr⟩ := built_last_decomp mid2 fsc3 g
    (iB ++ ["share"] ++ strToPath pkg) "cmake"
    (.dir false [(pkg ++ "Config.cmake", .file (cmakeConfigText pkg
      (libsOf (fs.get (bB ++ strToPath profile)) pkg)
      (!(relRoots (fs.get (bB ++ strToPath profile)) rosIncludeMarker).isEmpty)))])
    (by rw [← hCpar]; exact h0) (by rw [← hCpar]; exact hcda3) (by rw [← hCpar]; exact hg3)
  have hval : (((iB ++ ["share"] ++ strToPath pkg) ++ ["cmake"]).all
      (fun c => validName c)) = true := by
    rw [← hCpar]
    exact createDirAll_valid _ _ _ hcda3
  rw [hmid2b] at hcda3b
  exact rebuild_apply g g2 fsc3b (iB ++ ["share"] ++ strToPath pkg) "cmake" s front _
    hgpar hfr hval (by rw [← hCpar]; exact hcda3b) (by rw [← hCpar]; exact hg2b)

/-!
## Shape of the recursive `copy`: it only touches one entry of the
destination directory
-/

theorem fileName_append_last (p : Path) (n : String) :
    fileName (p ++ [n]) = if n = ".." then none else some n := by
  induction p with
  | nil => rfl
  | cons a p ih =>
      cases p with
      | nil => simpa [fileName] using ih
      | cons b p2 => simpa [fileName] using ih

theorem fsCopy_shape (fs fs2 : Node) (src dest : Path) (n : String) (d : Node)
    (hd : fs.get dest = some d)
    (hfc : fsCopy fs src (dest ++ [n]) = some fs2) :
    ∃ s es c, d = .dir s es ∧
      fs2 = setSub fs dest (.dir s (insertEntry es n (.file c))) := by
  simp only [fsCopy] at hfc
  cases hg : fs.get src with
  | none => rw [hg] at hfc; cases hfc
  | some w =>
      rw [hg] at hfc
      cases w with
      | dir s2 es2 => cases hfc
      | file c =>
          simp only at hfc
          rw [setFile_append fs dest [n] d c hd (by simp)] at hfc
          cases d with
          | file c2 => simp [setFile] at hfc
          | dir s es =>
              by_cases hv : validName n
              · rcases hlk : lookupEntry es n with _ | w2
                · simp only [setFile, hv, if_true, hlk, Option.map] at hfc
                  cases hfc
                  exact ⟨s, es, c, rfl, rfl⟩
                · cases w2 with
                  | file c3 =>
                      simp only [setFile, hv, if_true, hlk, Option.map] at hfc
                      cases hfc
                      exact ⟨s, es, c, rfl, rfl⟩
                  | dir s3 es3 => simp [setFile, hv, hlk] at hfc
              · simp [setFile, hv] at hfc

theorem copyEntriesShape (fuel : Nat)
    (hcomp1 : ∀ fs src destDir out, copyFuel fuel fs src destDir = .ok out →
      ∀ d, fs.get destDir = some d →
        ∃ s es w name, d = .dir s es ∧ fileName src = some name ∧
          out = setSub fs destDir (.dir s (insertEntry es name w))) :
    ∀ l fs src dest out, copyDirEntries fuel fs src dest l = .ok out →
      ∀ d, fs.get dest = some d → ∃ d2, out = setSub fs dest d2 := by
  intro l
  induction l with
  | nil =>
      intro fs src dest out hrun d hd
      simp only [copyDirEntries, Except.ok.injEq] at hrun
      exact ⟨d, by rw [← hrun, setSub_self fs dest d hd]⟩
  | cons e rest ihl =>
      intro fs src dest out hrun d hd
      obtain ⟨n, c⟩ := e
      cases c with
      | dir sym es2 =>
          cases sym with
          | false =>
              simp only [copyDirEntries] at hrun
              cases hcf : copyFuel fuel fs (src ++ [n]) dest with
              | error e2 => rw [hcf] at hrun; simp at hrun
              | ok fs2 =>
                  rw [hcf] at hrun
                  simp only at hrun
                  obtain ⟨s, es, w, name, hde, hfn, hshape⟩ :=
                    hcomp1 fs (src ++ [n]) dest fs2 hcf d hd
                  subst hde
                  have hd2 : fs2.get dest =
                      some (.dir s (insertEntry es name w)) := by
                    rw [hshape]
                    exact get_setSub_of_get fs dest _ _ hd
                  obtain ⟨d3, hout⟩ := ihl fs2 src dest out hrun _ hd2
                  refine ⟨d3, ?_⟩
                  rw [hout, hshape, setSub_setSub]
          | true =>
              simp only [copyDirEntries] at hrun
              cases hfc : fsCopy fs (src ++ [n]) (dest ++ [n]) with
              | none => rw [hfc] at hrun; simp at hrun
              | some fs2 =>
                  rw [hfc] at hrun
                  simp only at hrun
                  obtain ⟨s, es, c2, hde, hshape⟩ :=
                    fsCopy_shape fs fs2 (src ++ [n]) dest n d hd hfc
                  subst hde
                  have hd2 : fs2.get dest =
                      some (.dir s (insertEntry es n (.file c2))) := by
                    rw [hshape]
                    exact get_setSub_of_get fs dest _ _ hd
                  obtain ⟨d3, hout⟩ := ihl fs2 src dest out hrun _ hd2
                  refine ⟨d3, ?_⟩
                  rw [hout, hshape, setSub_setSub]
      | file c0 =>
          simp only [copyDirEntries] at hrun
          cases hfc : fsCopy fs (src ++ [n]) (dest ++ [n]) with
          | none => rw [hfc] at hrun; simp at hrun
          | some fs2 =>
              rw [hfc] at hrun
              simp only at hrun
              obtain ⟨s, es, c2, hde, hshape⟩ :=
                fsCopy_shape fs fs2 (src ++ [n]) dest n d hd hfc
              subst hde
              have hd2 : fs2.get dest =
                  some (.dir s (insertEntry es n (.file c2))) := by
                rw [hshape]
                exact get_setSub_of_get fs dest _ _ hd
              obtain ⟨d3, hout⟩ := ihl fs2 src dest out hrun _ hd2
              refine ⟨d3, ?_⟩
              rw [hout, hshape, setSub_setSub]

theorem copyFuel_shape (fuel : Nat) :
    ∀ fs src destDir out, copyFuel fuel fs src destDir = .ok out →
      ∀ d, fs.get destDir = some d →
        ∃ s es w name, d = .dir s es ∧ fileName src = some name ∧
          out = setSub fs destDir (.dir s (insertEntry es name w)) := by
  induction fuel with
  | zero =>
      intro fs src destDir out hrun d hd
      cases hn : fileName src with
      | none => simp [copyFuel, hn] at hrun
      | some name =>
          simp only [copyFuel, hn] at hrun
          by_cases hdir : isDir fs src
          · simp [hdir] at hrun
          · by_cases hfile : isFile fs src
            · simp only [hdir, Bool.false_eq_true, if_false, hfile, if_true] at hrun
              cases hfc : fsCopy fs src (destDir ++ [name]) with
              | none => rw [hfc] at hrun; simp at hrun
              | some fs2 =>
                  rw [hfc] at hrun
                  simp only [Except.ok.injEq] at hrun
                  obtain ⟨s, es, c2, hde, hshape⟩ :=
                    fsCopy_shape fs fs2 src destDir name d hd hfc
                  subst hde
                  exact ⟨s, es, .file c2, name, rfl, rfl, by rw [← hrun, hshape]⟩
            · simp [hdir, hfile] at hrun
  | succ fuel ih =>
      intro fs src destDir out hrun d hd
      cases hn : fileName src with
      | none => simp [copyFuel, hn] at hrun
      | some name =>
          simp only [copyFuel, hn] at hrun
          by_cases hdir : isDir fs src
          · simp only [hdir, if_true] at hrun
            cases hcda : createDirAll fs (destDir ++ [name]) with
            | none => rw [hcda] at hrun; simp at hrun
            | some fs2 =>
                rw [hcda] at hrun
                simp only at hrun
                have hval := createDirAll_valid _ _ _ hcda
                have hvalD : destDir.all (fun c => validName c) = true := by
                  have h9 := hval
                  simp only [List.all_append, Bool.and_eq_true] at h9
                  exact h9.1
                cases d with
                | file c2 =>
                    exfalso
                    rw [createDirAll_append fs destDir [name] _ hd hvalD] at hcda
                    simp [createDirAll] at hcda
                | dir s es =>
                    rw [createDirAll_append fs destDir [name] _ hd hvalD] at hcda
                    have hvn : validName name = true := by
                      have h9 := hval
                      simp only [List.all_append, Bool.and_eq_true] at h9
                      simpa using h9.2
                    -- compute the inner createDirAll
                    rcases hlk : lookupEntry es name with _ | ch
                    · simp only [createDirAll, hvn, if_true, hlk] at hcda
                      simp only [createDirAll, Option.map] at hcda
                      have hfs2 : fs2 = setSub fs destDir
                          (.dir s (insertEntry es name (.dir false []))) := by
                        cases hcda
                        rfl
                      subst hfs2
                      cases hg2 : (setSub fs destDir
                          (.dir s (insertEntry es name (.dir false [])))).get
                          (destDir ++ [name]) with
                      | none =>
                          exfalso
                          rw [get_append_viewGet, get_setSub_of_get fs destDir _ _ hd]
                            at hg2
                          simp [viewGet, Node.get, lookupEntry_insertEntry] at hg2
                      | some dd =>
                          cases hrun2 : (setSub fs destDir
                              (.dir s (insertEntry es name (.dir false [])))).get src with
                          | none => rw [hrun2] at hrun; simp at hrun
                          | some wsrc =>
                              rw [hrun2] at hrun
                              cases wsrc with
                              | file c3 => simp at hrun
                              | dir s4 es4 =>
                                  simp only at hrun
                                  obtain ⟨d2, hout⟩ := copyEntriesShape fuel ih es4 _
                                    src (destDir ++ [name]) out hrun dd hg2
                                  refine ⟨s, es, d2, name, rfl, rfl, ?_⟩
                                  rw [hout]
                                  rw [setSub_append _ destDir [name] _ d2
                                    (get_setSub_of_get fs destDir _ _ hd)]
                                  rw [setSub_setSub]
                                  have hinner : setSub
                                      (Node.dir s (insertEntry es name (.dir false [])))
                                      [name] d2 =
                                      .dir s (insertEntry es name d2) := by
                                    simp [setSub, lookupEntry_insertEntry,
                                      insertEntry_insertEntry]
                                  rw [hinner]
                    · simp only [createDirAll, hvn, if_true, hlk] at hcda
                      cases ch with
                      | file c3 => simp [createDirAll] at hcda
                      | dir s3 es3 =>
                          simp only [createDirAll, Option.map] at hcda
                          have hfs2 : fs2 = setSub fs destDir
                              (.dir s (insertEntry es name (.dir s3 es3))) := by
                            cases hcda
                            rfl
                          subst hfs2
                          cases hg2 : (setSub fs destDir
                              (.dir s (insertEntry es name (.dir s3 es3)))).get
                              (destDir ++ [name]) with
                          | none =>
                              exfalso
                              rw [get_append_viewGet,
                                get_setSub_of_get fs destDir _ _ hd] at hg2
                              simp [viewGet, Node.get, lookupEntry_insertEntry] at hg2
                          | some dd =>
                              cases hrun2 : (setSub fs destDir
                                  (.dir s (insertEntry es name (.dir s3 es3)))).get src with
                              | none => rw [hrun2] at hrun; simp at hrun
                              | some wsrc =>
                                  rw [hrun2] at hrun
                                  cases wsrc with
                                  | file c3 => simp at hrun
                                  | dir s4 es4 =>
                                      simp only at hrun
                                      obtain ⟨d2, hout⟩ := copyEntriesShape fuel ih es4 _
                                        src (destDir ++ [name]) out hrun dd hg2
                                      refine ⟨s, es, d2, name, rfl, rfl, ?_⟩
                                      rw [hout]
                                      rw [setSub_append _ destDir [name] _ d2
                                        (get_setSub_of_get fs destDir _ _ hd)]
                                      rw [setSub_setSub]
                                      have hinner : setSub
                                          (Node.dir s (insertEntry es name (.dir s3 es3)))
                                          [name] d2 =
                                          .dir s (insertEntry es name d2) := by
                                        simp [setSub, lookupEntry_insertEntry,
                                          insertEntry_insertEntry]
                                      rw [hinner]
          · by_cases hfile : isFile fs src
            · simp only [hdir, Bool.false_eq_true, if_false, hfile, if_true] at hrun
              cases hfc : fsCopy fs src (destDir ++ [name]) with
              | none => rw [hfc] at hrun; simp at hrun
              | some fs2 =>
                  rw [hfc] at hrun
                  simp only [Except.ok.injEq] at hrun
                  obtain ⟨s, es, c2, hde, hshape⟩ :=
                    fsCopy_shape fs fs2 src destDir name d hd hfc
                  subst hde
                  exact ⟨s, es, .file c2, name, rfl, rfl, by rw [← hrun, hshape]⟩
            · simp [hdir, hfile] at hrun

/-!
## Characterization of the marker discovery (`find_markers`)
-/

theorem nodupNames_lookup (es : List (String × Node)) (n : String) (c : Node)
    (hdup : nodupEntries es = true) (hl : lookupEntry es n = some c) :
    nodupNames c = true := by
  induction es with
  | nil => simp [lookupEntry] at hl
  | cons e rest ih =>
      obtain ⟨m, w⟩ := e
      simp only [nodupEntries, Bool.and_eq_true] at hdup
      by_cases hmn : m = n
      · subst hmn
        simp only [lookupEntry, if_pos rfl] at hl
        cases hl
        exact hdup.1.2
      · simp only [lookupEntry, hmn, if_false] at hl
        exact ih hdup.2 hl

theorem lookup_none_of_all_ne (es : List (String × Node)) (m : String)
    (h : es.all (fun e => e.1 ≠ m) = true) : lookupEntry es m = none := by
  induction es with
  | nil => rfl
  | cons e rest ih =>
      obtain ⟨a, b⟩ := e
      simp only [List.all_cons, Bool.and_eq_true] at h
      have ha : a ≠ m := by simpa using h.1
      simp [lookupEntry, ha, ih h.2]

theorem nil_not_mem_findMarkersEntries (marker : String)
    (es : List (String × Node)) : ([] : Path) ∉ findMarkersEntries marker es := by
  induction es with
  | nil => simp [findMarkersEntries]
  | cons e rest ih =>
      obtain ⟨n, c⟩ := e
      intro hmem
      simp only [findMarkersEntries, List.mem_append] at hmem
      rcases hmem with hmem | hmem
      · cases c with
        | file w => simp at hmem
        | dir sym es2 =>
            cases sym with
            | false =>
                simp only [List.mem_map] at hmem
                obtain ⟨p, _, hp⟩ := hmem
                cases hp
            | true => simp at hmem
      · exact ih hmem

theorem mem_findMarkersEntries_iff (marker : String) (es : List (String × Node))
    (n : String) (r : Path) (hdup : nodupEntries es = true) :
    (n :: r) ∈ findMarkersEntries marker es ↔
      ∃ es2, lookupEntry es n = some (.dir false es2) ∧
        r ∈ findMarkersNode marker (.dir false es2) := by
  induction es with
  | nil => simp [findMarkersEntries, lookupEntry]
  | cons e rest ih =>
      obtain ⟨m, w⟩ := e
      simp only [nodupEntries, Bool.and_eq_true] at hdup
      constructor
      · intro hmem
        simp only [findMarkersEntries, List.mem_append] at hmem
        rcases hmem with hmem | hmem
        · cases w with
          | file c => simp at hmem
          | dir sym es2 =>
              cases sym with
              | false =>
                  simp only [List.mem_map] at hmem
                  obtain ⟨p, hp, hpe⟩ := hmem
                  have hm : m = n := by
                    injection hpe with h1 h2
                  subst hm
                  have hr : p = r := by
                    injection hpe with h1 h2
                  subst hr
                  exact ⟨es2, by simp [lookupEntry], hp⟩
              | true => simp at hmem
        · obtain ⟨es2, hl, hr⟩ := ih hdup.2 |>.mp hmem
          by_cases hmn : m = n
          · subst hmn
            exfalso
            have hnone : lookupEntry rest m = none :=
              lookup_none_of_all_ne rest m hdup.1.1
            rw [hl] at hnone
            cases hnone
          · exact ⟨es2, by simp [lookupEntry, hmn]; exact hl, hr⟩
      · intro ⟨es2, hl, hr⟩
        simp only [findMarkersEntries, List.mem_append]
        by_cases hmn : m = n
        · subst hmn
          simp only [lookupEntry, if_pos rfl] at hl
          cases hl
          exact Or.inl (by simp only [List.mem_map]; exact ⟨r, hr, rfl⟩)
        · simp only [lookupEntry, hmn, if_false] at hl
          exact Or.inr ((ih hdup.2).mpr ⟨es2, hl, hr⟩)

/-- C8: under the entry-name distinctness that `read_dir` guarantees for a
real directory tree, `find_markers` records exactly the directories that are
reachable from the entered directory without crossing a symbolic link and
that directly contain the marker as a regular file — nesting does not stop
the search, and a sentinel behind a symlinked directory is never
discovered. -/
theorem findMarkers_iff (marker : String) (nd : Node) (r : Path)
    (hdup : nodupNames nd = true) :
    r ∈ findMarkersNode marker nd ↔
      ∃ s es, reachNoSym nd r = some (.dir s es) ∧
        ∃ c, lookupEntry es marker = some (.file c) := by
  induction r generalizing nd with
  | nil =>
      cases nd with
      | file c =>
          simp [findMarkersNode, reachNoSym]
      | dir s es =>
          simp only [findMarkersNode, List.mem_append, reachNoSym]
          constructor
          · intro hmem
            rcases hmem with hmem | hmem
            · refine ⟨s, es, rfl, ?_⟩
              cases hl : lookupEntry es marker with
              | none => rw [hl] at hmem; simp at hmem
              | some w =>
                  cases w with
                  | file c => exact ⟨c, rfl⟩
                  | dir s2 es2 => rw [hl] at hmem; simp at hmem
            · exact absurd hmem (nil_not_mem_findMarkersEntries marker es)
          · rintro ⟨s2, es2, hre, c, hl⟩
            have hre2 : Node.dir s es = Node.dir s2 es2 := by
              simpa [reachNoSym] using hre
            injection hre2 with h1 h2
            subst h1
            subst h2
            exact Or.inl (by rw [hl]; simp)
  | cons n r ih =>
      cases nd with
      | file c =>
          simp [findMarkersNode, reachNoSym]
      | dir s es =>
          simp only [findMarkersNode, List.mem_append, reachNoSym]
          have hdup2 : nodupEntries es = true := by simpa [nodupNames] using hdup
          constructor
          · intro hmem
            rcases hmem with hmem | hmem
            · exfalso
              cases hl : lookupEntry es marker with
              | none => rw [hl] at hmem; simp at hmem
              | some w =>
                  cases w with
                  | file c2 => rw [hl] at hmem; simp at hmem
                  | dir s2 es2 => rw [hl] at hmem; simp at hmem
            · obtain ⟨es2, hl, hr⟩ :=
                (mem_findMarkersEntries_iff marker es n r hdup2).mp hmem
              rw [hl]
              exact (ih (.dir false es2)
                (nodupNames_lookup es n _ hdup2 hl)).mp hr
          · intro ⟨s2, es2, hre, c, hl⟩
            cases hlk : lookupEntry es n with
            | none => rw [hlk] at hre; cases hre
            | some w =>
                cases w with
                | file c2 => rw [hlk] at hre; cases hre
                | dir sym es3 =>
                    cases sym with
                    | true => rw [hlk] at hre; cases hre
                    | false =>
                        rw [hlk] at hre
                        refine Or.inr ((mem_findMarkersEntries_iff marker es n r
                          hdup2).mpr ⟨es3, hlk, ?_⟩)
                        exact (ih (.dir false es3)
                          (nodupNames_lookup es n _ hdup2 hlk)).mpr ⟨s2, es2, hre, c, hl⟩

/-!
## The merged include contents never gain a top-level marker entry
-/

theorem mergeEntriesPure_no_marker (es : List (String × Node)) (marker : String)
    (acc : List (String × Node)) (iter : List (String × Node))
    (h : lookupEntry acc marker = none) :
    lookupEntry (mergeEntriesPure es marker acc iter) marker = none := by
  induction iter generalizing acc with
  | nil => simpa [mergeEntriesPure] using h
  | cons e iter ih =>
      obtain ⟨n, w⟩ := e
      by_cases hn : n = marker
      · simp only [mergeEntriesPure, hn, if_true]
        exact ih acc h
      · simp only [mergeEntriesPure, hn, if_false]
        cases hl : lookupEntry es n with
        | none => exact ih acc h
        | some s =>
            refine ih _ ?_
            rw [lookupEntry_insertEntry]
            simp [hn, h]

theorem mergedOf_no_marker (v : Option Node) (marker : String)
    (acc : List (String × Node)) (rels : List Path)
    (h : lookupEntry acc marker = none) :
    lookupEntry (mergedOf v marker acc rels) marker = none := by
  induction rels generalizing acc with
  | nil => simpa [mergedOf] using h
  | cons r rest ih =>
      simp only [mergedOf]
      exact ih _ (mergeEntriesPure_no_marker _ _ _ _ h)

/-!
## Lookup of a present library candidate in the built entry list
-/

theorem libEntries_lookup (v : Option Node) (pkg : String)
    (combos : List (String × String)) (es : List (String × Node)) (fn : String) :
    (∃ c, viewGet v [fn] = some (.file c) ∧ fn ∈ libsOfList v pkg combos ∧
      lookupEntry (libEntries v pkg combos es) fn = some (.file c)) ∨
    (fn ∉ libsOfList v pkg combos ∧
      lookupEntry (libEntries v pkg combos es) fn = lookupEntry es fn) := by
  induction combos generalizing es with
  | nil => exact Or.inr ⟨by simp [libsOfList], by simp [libEntries]⟩
  | cons pc rest ih =>
      obtain ⟨pre, suf⟩ := pc
      cases hv : viewGet v [pre ++ pkg ++ "." ++ suf] with
      | none =>
          simp only [libsOfList, libEntries, hv]
          exact ih es
      | some w =>
          cases w with
          | dir s2 es2 =>
              simp only [libsOfList, libEntries, hv]
              exact ih es
          | file c =>
              simp only [libsOfList, libEntries, hv]
              rcases ih (insertEntry es (pre ++ pkg ++ "." ++ suf) (.file c)) with
                ⟨c2, hv2, hmem, hlk⟩ | ⟨hnot, hlk⟩
              · exact Or.inl ⟨c2, hv2, List.mem_cons_of_mem _ hmem, hlk⟩
              · by_cases hfn : pre ++ pkg ++ "." ++ suf = fn
                · subst hfn
                  refine Or.inl ⟨c, hv, List.mem_cons_self _ _, ?_⟩
                  rw [hlk, lookupEntry_insertEntry]
                  simp
                · refine Or.inr ⟨?_, ?_⟩
                  · intro hmem
                    rcases List.mem_cons.mp hmem with hh | hh
                    · exact hfn hh.symm
                    · exact hnot hh
                  · rw [hlk, lookupEntry_insertEntry]
                    simp [hfn]

theorem mem_libsOfList_iff (v : Option Node) (pkg : String)
    (combos : List (String × String)) (fn : String) :
    fn ∈ libsOfList v pkg combos ↔
      ∃ pc ∈ combos, fn = pc.1 ++ pkg ++ "." ++ pc.2 ∧
        ∃ c, viewGet v [fn] = some (.file c) := by
  induction combos with
  | nil => simp [libsOfList]
  | cons pc rest ih =>
      obtain ⟨pre, suf⟩ := pc
      constructor
      · intro hmem
        cases hv : viewGet v [pre ++ pkg ++ "." ++ suf] with
        | none =>
            simp only [libsOfList, hv] at hmem
            obtain ⟨pc2, hpc2, hfn, hc⟩ := ih.mp hmem
            exact ⟨pc2, List.mem_cons_of_mem _ hpc2, hfn, hc⟩
        | some w =>
            cases w with
            | dir s2 es2 =>
                simp only [libsOfList, hv] at hmem
                obtain ⟨pc2, hpc2, hfn, hc⟩ := ih.mp hmem
                exact ⟨pc2, List.mem_cons_of_mem _ hpc2, hfn, hc⟩
            | file c =>
                simp only [libsOfList, hv] at hmem
                rcases List.mem_cons.mp hmem with hh | hh
                · subst hh
                  exact ⟨(pre, suf), List.mem_cons_self _ _, rfl, c, hv⟩
                · obtain ⟨pc2, hpc2, hfn, hc⟩ := ih.mp hh
                  exact ⟨pc2, List.mem_cons_of_mem _ hpc2, hfn, hc⟩
      · rintro ⟨pc2, hpc2, hfn, c, hc⟩
        rcases List.mem_cons.mp hpc2 with hh | hh
        · subst hh
          simp only at hfn
          subst hfn
          simp only [libsOfList, hc]
          exact List.mem_cons_self _ _
        · have hrest : fn ∈ libsOfList v pkg rest := ih.mpr ⟨pc2, hh, hfn, c, hc⟩
          cases hv : viewGet v [pre ++ pkg ++ "." ++ suf] with
          | none => simpa [libsOfList, hv] using hrest
          | some w =>
              cases w with
              | dir s2 es2 => simpa [libsOfList, hv] using hrest
              | file c2 =>
                  simp only [libsOfList, hv]
                  exact List.mem_cons_of_mem _ hrest

/-!
## A nameless or missing binary fails the whole run
-/

theorem get_fsCopy_of_diverges (fs fs2 : Node) (src dest q : Path)
    (hc : fsCopy fs src dest = some fs2) (h : diverges dest q = true) :
    fs2.get q = fs.get q := by
  simp only [fsCopy] at hc
  cases hg : fs.get src with
  | none => rw [hg] at hc; cases hc
  | some w =>
      rw [hg] at hc
      cases w with
      | dir s es => cases hc
      | file c =>
          simp only at hc
          exact get_setFile_of_diverges fs fs2 dest q c hc h

theorem copyBinaries_error (srcDir destDir : Path) (v : Option Node) (fs : Node)
    (bins : List Product)
    (hdiv : diverges destDir srcDir = true)
    (hsrc : ∀ q, fs.get (srcDir ++ q) = viewGet v q)
    (hbad : ∃ b ∈ bins, b.name = none ∨
      ∃ nm, b.name = some nm ∧ viewGet v (strToPath nm) = none) :
    ∃ e, copyBinaries srcDir destDir fs bins = .error e := by
  induction bins generalizing fs with
  | nil => simp at hbad
  | cons b rest ih =>
      obtain ⟨b2, hb2mem, hb2⟩ := hbad
      cases hn : b.name with
      | none => exact ⟨.io "Binary without name found", by simp [copyBinaries, hn]⟩
      | some nm =>
          cases hcda : createDirAll fs destDir with
          | none =>
              exact ⟨.io "failed to create directory", by simp [copyBinaries, hn, hcda]⟩
          | some fs2 =>
              have hsrc2 : ∀ q, fs2.get (srcDir ++ q) = viewGet v q := by
                intro q
                rw [get_createDirAll_of_diverges fs fs2 destDir (srcDir ++ q) hcda
                  (diverges_append_right _ _ _ hdiv)]
                exact hsrc q
              cases hfc : fsCopy fs2 (srcDir ++ strToPath nm)
                  (destDir ++ strToPath nm) with
              | none =>
                  exact ⟨.io "Failed to copy binary",
                    by simp [copyBinaries, hn, hcda, hfc]⟩
              | some fs3 =>
                  rcases List.mem_cons.mp hb2mem with hb2head | hb2rest
                  · exfalso
                    subst hb2head
                    rcases hb2 with hnone | ⟨nm2, hnm2, hmiss⟩
                    · rw [hn] at hnone; cases hnone
                    · rw [hn] at hnm2
                      injection hnm2 with hh
                      subst hh
                      simp only [fsCopy] at hfc
                      rw [hsrc2 (strToPath nm), hmiss] at hfc
                      cases hfc
                  · have hsrc3 : ∀ q, fs3.get (srcDir ++ q) = viewGet v q := by
                      intro q
                      rw [get_fsCopy_of_diverges fs2 fs3 _ _ _ hfc
                        (diverges_append_right _ _ _ (diverges_append_left _ _ _ hdiv))]
                      exact hsrc2 q
                    obtain ⟨e, he⟩ := ih fs3 hsrc3 ⟨b2, hb2rest, hb2⟩
                    exact ⟨e, by simp [copyBinaries, hn, hcda, hfc, he]⟩

/-!
## The final contents of every artifact-installer destination
-/

theorem installBinaries_dests (fs g : Node) (iB bB : Path) (pkg profile : String)
    (bins : List Product)
    (hd1 : diverges (libDest iB pkg) (bB ++ strToPath profile) = true)
    (hd2 : diverges (includeDest iB pkg) (bB ++ strToPath profile) = true)
    (hrun : installBinaries fs iB bB pkg profile bins = .ok g) :
    (libWrites (fs.get (bB ++ strToPath profile)) pkg bins = true →
      g.get (libDest iB pkg) =
        some (.dir false
          (builtLibEntries (fs.get (bB ++ strToPath profile)) pkg bins))) ∧
    (libWrites (fs.get (bB ++ strToPath profile)) pkg bins = false →
      g.get (libDest iB pkg) =
        (wipeIfDir fs (libDest iB pkg)).get (libDest iB pkg)) ∧
    (relRoots (fs.get (bB ++ strToPath profile)) rosIncludeMarker = [] →
      g.get (includeDest iB pkg) = fs.get (includeDest iB pkg)) ∧
    (relRoots (fs.get (bB ++ strToPath profile)) rosIncludeMarker ≠ [] →
      g.get (includeDest iB pkg) =
        some (.dir false
          (mergedOf (fs.get (bB ++ strToPath profile)) rosIncludeMarker []
            (relRoots (fs.get (bB ++ strToPath profile)) rosIncludeMarker)))) ∧
    g.get (cmakeDest iB pkg) =
      some (.dir false [(pkg ++ "Config.cmake",
        .file (cmakeConfigText pkg (libsOf (fs.get (bB ++ strToPath profile)) pkg)
          (!(relRoots (fs.get (bB ++ strToPath profile))
            rosIncludeMarker).isEmpty)))]) := by
  obtain ⟨mid1, mid2, hmid1, hmid2, fsc3, hcda3, hfsc3, hg⟩ :=
    installBinaries_char fs g iB bB pkg profile bins hd1 hd2 hrun
  have hL : libDest iB pkg = iB ++ "lib" :: strToPath pkg := by simp [libDest]
  have hI : includeDest iB pkg = iB ++ "include" :: strToPath pkg := by
    simp [includeDest]
  have hC : cmakeDest iB pkg = iB ++ "share" :: (strToPath pkg ++ ["cmake"]) := by
    simp [cmakeDest]
  have dLI : diverges (libDest iB pkg) (includeDest iB pkg) = true := by
    rw [hL, hI]; exact diverges_shared iB "lib" "include" _ _ (by decide)
  have dLC : diverges (libDest iB pkg) (cmakeDest iB pkg) = true := by
    rw [hL, hC]; exact diverges_shared iB "lib" "share" _ _ (by decide)
  have dIC : diverges (includeDest iB pkg) (cmakeDest iB pkg) = true := by
    rw [hI, hC]; exact diverges_shared iB "include" "share" _ _ (by decide)
  have dCL : diverges (cmakeDest iB pkg) (libDest iB pkg) = true := by
    rw [diverges_symm]; exact dLC
  have dCI : diverges (cmakeDest iB pkg) (includeDest iB pkg) = true := by
    rw [diverges_symm]; exact dIC
  have dIL : diverges (includeDest iB pkg) (libDest iB pkg) = true := by
    rw [diverges_symm]; exact dLI
  have hgL : g.get (libDest iB pkg) = mid2.get (libDest iB pkg) := by
    rw [hg, get_setSub_of_diverges _ _ _ _ dCL,
      get_createDirAll_of_diverges _ fsc3 _ _ hcda3 dCL,
      get_wipeIfDir_of_diverges _ _ _ dCL]
  have hgI : g.get (includeDest iB pkg) = mid2.get (includeDest iB pkg) := by
    rw [hg, get_setSub_of_diverges _ _ _ _ dCI,
      get_createDirAll_of_diverges _ fsc3 _ _ hcda3 dCI,
      get_wipeIfDir_of_diverges _ _ _ dCI]
  have hmid2L : mid2.get (libDest iB pkg) = mid1.get (libDest iB pkg) := by
    rcases hmid2 with ⟨hrel, hmm⟩ | ⟨hrel, fsc2, hcda2, hfsc2, hmm⟩
    · rw [hmm]
    · rw [hmm, get_setSub_of_diverges _ _ _ _ dIL,
        get_createDirAll_of_diverges _ fsc2 _ _ hcda2 dIL,
        get_wipeIfDir_of_diverges _ _ _ dIL]
  have hmid1I : mid1.get (includeDest iB pkg) = fs.get (includeDest iB pkg) := by
    rcases hmid1 with ⟨hw, fsc1, hcda1, hfsc1, hmm⟩ | ⟨hw, hmm⟩
    · rw [hmm, get_setSub_of_diverges _ _ _ _ dLI,
        get_createDirAll_of_diverges _ fsc1 _ _ hcda1 dLI,
        get_wipeIfDir_of_diverges _ _ _ dLI]
    · rw [hmm, get_wipeIfDir_of_diverges _ _ _ dLI]
  refine ⟨?_, ?_, ?_, ?_, ?_⟩
  · intro hw
    rcases hmid1 with ⟨hw2, fsc1, hcda1, hfsc1, hmm⟩ | ⟨hw2, hmm⟩
    · rw [hgL, hmid2L, hmm]
      exact get_setSub_of_get fsc1 _ _ _ hfsc1
    · rw [hw] at hw2; cases hw2
  · intro hw
    rcases hmid1 with ⟨hw2, fsc1, hcda1, hfsc1, hmm⟩ | ⟨hw2, hmm⟩
    · rw [hw] at hw2; cases hw2
    · rw [hgL, hmid2L, hmm]
  · intro hrel
    rcases hmid2 with ⟨hrel2, hmm⟩ | ⟨hrel2, fsc2, hcda2, hfsc2, hmm⟩
    · rw [hgI, hmm, hmid1I]
    · exact absurd hrel hrel2
  · intro hrel
    rcases hmid2 with ⟨hrel2, hmm⟩ | ⟨hrel2, fsc2, hcda2, hfsc2, hmm⟩
    · exact absurd hrel2 hrel
    · rw [hgI, hmm]
      exact get_setSub_of_get fsc2 _ _ _ hfsc2
  · rw [hg]
    exact get_setSub_of_get fsc3 _ _ _ hfsc3

/-!
## Reaching `copy` with a file-name-free source from the metadata installer
-/

theorem copy_fileName_none (fs : Node) (src destDir : Path)
    (h : fileName src = none) : copy fs src destDir = .error .panicked := by
  simp [copy, copyFuel, h]

theorem copyMetadataEntries_head_error (pp dest : Path) (fs : Node) (r : String)
    (rest : List String) (e : Er)
    (hc : copy fs (pp ++ strToPath r) dest = .error e) :
    copyMetadataEntries pp dest fs (r :: rest) = .error e := by
  simp [copyMetadataEntries, hc]

theorem installKinds_head_error (iB pp : Path) (pkg : String)
    (ros : List (String × Value)) (fs fs2 : Node) (subdir : String)
    (rest : List String) (arr : List Value) (entries : List String) (e : Er)
    (hcda : createDirAll fs (iB ++ [subdir] ++ strToPath pkg) = some fs2)
    (hkey : lookupTab ros ("install_to_" ++ subdir) = some (.array arr))
    (hcoll : collectStrings ("install_to_" ++ subdir) arr = .ok entries)
    (hcme : copyMetadataEntries pp (iB ++ [subdir] ++ strToPath pkg) fs2 entries =
      .error e) :
    installKinds iB pp pkg ros fs (subdir :: rest) = .error e := by
  have hcda2 : createDirAll fs (iB ++ subdir :: strToPath pkg) = some fs2 := by
    simpa using hcda
  have hcme2 : copyMetadataEntries pp (iB ++ subdir :: strToPath pkg) fs2 entries =
      .error e := by
    simpa using hcme
  simp [installKinds, hcda2, hkey, hcoll, hcme2]

/-!
## The claims

One theorem per claim of the specification review, with its witness, and a
counterexample where the claim had to be corrected.
-/

/-- C1: amended.  When at least one include root is discovered, a successful
run of the artifact installer leaves `include/<pkg>` with no top-level entry
named after the sentinel (each merged root's own marker entry is skipped).
The claim's stronger reading — that no sentinel of any discovered root
appears anywhere under the merged destination — fails: a nested root is
copied wholesale as a subdirectory of its enclosing root, marker included
(`nested_marker_copied`). -/
theorem installBinaries_no_top_marker (fs g : Node) (iB bB : Path)
    (pkg profile : String) (bins : List Product)
    (hd1 : diverges (libDest iB pkg) (bB ++ strToPath profile) = true)
    (hd2 : diverges (includeDest iB pkg) (bB ++ strToPath profile) = true)
    (hroots : relRoots (fs.get (bB ++ strToPath profile)) rosIncludeMarker ≠ [])
    (hrun : installBinaries fs iB bB pkg profile bins = .ok g) :
    ∃ es, g.get (includeDest iB pkg) = some (.dir false es) ∧
      lookupEntry es rosIncludeMarker = none := by
  obtain ⟨-, -, -, h4, -⟩ :=
    installBinaries_dests fs g iB bB pkg profile bins hd1 hd2 hrun
  exact ⟨_, h4 hroots, mergedOf_no_marker _ _ _ _ rfl⟩

/-- C1 counterexample: on `fsNested` the nested root's own sentinel file is
copied into the merged destination, at `include/p/c/CARGO_ROS_INCLUDE_ROOT`. -/
theorem nested_marker_copied :
    installBinaries fsNested ["i"] ["b"] "p" "t" [] = .ok gNested ∧
    gNested.get (includeDest ["i"] "p" ++ ["c", rosIncludeMarker]) =
      some (.file "") := ⟨rfl, rfl⟩

/-- C1 witness: the amended statement at the concrete tree `fsNested`. -/
theorem installBinaries_no_top_marker_witness :
    diverges (libDest ["i"] "p") (["b"] ++ strToPath "t") = true ∧
    diverges (includeDest ["i"] "p") (["b"] ++ strToPath "t") = true ∧
    relRoots (fsNested.get (["b"] ++ strToPath "t")) rosIncludeMarker ≠ [] ∧
    (∃ es, gNested.get (includeDest ["i"] "p") = some (.dir false es) ∧
      lookupEntry es rosIncludeMarker = none) :=
  ⟨by decide, by decide, by decide,
    installBinaries_no_top_marker fsNested gNested ["i"] ["b"] "p" "t" []
      (by decide) (by decide) (by decide) rfl⟩

/-- C2: amended.  A successful run of the artifact installer determines
`lib/<pkg>` and `share/<pkg>/cmake` purely from the build-output view (both
are wiped before repopulation), and does the same for `include/<pkg>` when at
least one sentinel root is found; when no root is found, `include/<pkg>` is
left exactly as it was — stale contents from a previous run survive there,
refuting the unconditional-wipe reading (`stale_include_survives`). -/
theorem installBinaries_wipe_semantics (fs g : Node) (iB bB : Path)
    (pkg profile : String) (bins : List Product)
    (hd1 : diverges (libDest iB pkg) (bB ++ strToPath profile) = true)
    (hd2 : diverges (includeDest iB pkg) (bB ++ strToPath profile) = true)
    (hrun : installBinaries fs iB bB pkg profile bins = .ok g) :
    (libWrites (fs.get (bB ++ strToPath profile)) pkg bins = true →
      g.get (libDest iB pkg) =
        some (.dir false
          (builtLibEntries (fs.get (bB ++ strToPath profile)) pkg bins))) ∧
    (libWrites (fs.get (bB ++ strToPath profile)) pkg bins = false →
      g.get (libDest iB pkg) =
        (wipeIfDir fs (libDest iB pkg)).get (libDest iB pkg)) ∧
    (relRoots (fs.get (bB ++ strToPath profile)) rosIncludeMarker ≠ [] →
      g.get (includeDest iB pkg) =
        some (.dir false
          (mergedOf (fs.get (bB ++ strToPath profile)) rosIncludeMarker []
            (relRoots (fs.get (bB ++ strToPath profile)) rosIncludeMarker)))) ∧
    (relRoots (fs.get (bB ++ strToPath profile)) rosIncludeMarker = [] →
      g.get (includeDest iB pkg) = fs.get (includeDest iB pkg)) ∧
    g.get (cmakeDest iB pkg) =
      some (.dir false [(pkg ++ "Config.cmake",
        .file (cmakeConfigText pkg (libsOf (fs.get (bB ++ strToPath profile)) pkg)
          (!(relRoots (fs.get (bB ++ strToPath profile))
            rosIncludeMarker).isEmpty)))]) := by
  obtain ⟨h1, h2, h3, h4, h5⟩ :=
    installBinaries_dests fs g iB bB pkg profile bins hd1 hd2 hrun
  exact ⟨h1, h2, h4, h3, h5⟩

/-- C2 counterexample: on `fsStale` the build output holds no sentinel root,
the run succeeds, and the file `include/p/old.h` from a previous run is still
there afterwards. -/
theorem stale_include_survives :
    installBinaries fsStale ["i"] ["b"] "p" "t" [] = .ok gStale ∧
    relRoots (fsStale.get (["b"] ++ strToPath "t")) rosIncludeMarker = [] ∧
    gStale.get (includeDest ["i"] "p" ++ ["old.h"]) = some (.file "OLD") :=
  ⟨rfl, rfl, rfl⟩

/-- C2 witness: the amended statement at the concrete tree `fsStale`. -/
theorem installBinaries_wipe_semantics_witness :
    diverges (libDest ["i"] "p") (["b"] ++ strToPath "t") = true ∧
    diverges (includeDest ["i"] "p") (["b"] ++ strToPath "t") = true ∧
    ((libWrites (fsStale.get (["b"] ++ strToPath "t")) "p" [] = true →
        gStale.get (libDest ["i"] "p") =
          some (.dir false
            (builtLibEntries (fsStale.get (["b"] ++ strToPath "t")) "p" []))) ∧
     (libWrites (fsStale.get (["b"] ++ strToPath "t")) "p" [] = false →
        gStale.get (libDest ["i"] "p") =
          (wipeIfDir fsStale (libDest ["i"] "p")).get (libDest ["i"] "p")) ∧
     (relRoots (fsStale.get (["b"] ++ strToPath "t")) rosIncludeMarker ≠ [] →
        gStale.get (includeDest ["i"] "p") =
          some (.dir false
            (mergedOf (fsStale.get (["b"] ++ strToPath "t")) rosIncludeMarker []
              (relRoots (fsStale.get (["b"] ++ strToPath "t")) rosIncludeMarker)))) ∧
     (relRoots (fsStale.get (["b"] ++ strToPath "t")) rosIncludeMarker = [] →
        gStale.get (includeDest ["i"] "p") = fsStale.get (includeDest ["i"] "p")) ∧
     gStale.get (cmakeDest ["i"] "p") =
       some (.dir false [("p" ++ "Config.cmake",
         .file (cmakeConfigText "p" (libsOf (fsStale.get (["b"] ++ strToPath "t")) "p")
           (!(relRoots (fsStale.get (["b"] ++ strToPath "t"))
             rosIncludeMarker).isEmpty)))])) :=
  ⟨by decide, by decide,
    installBinaries_wipe_semantics fsStale gStale ["i"] ["b"] "p" "t" []
      (by decide) (by decide) rfl⟩

/-- C3 counterexample: with the install base inside the build output
(`install base = build base / profile`) both runs succeed but the second run
produces a different tree — the first run's merged include contents are
rediscovered as an include root. -/
theorem installBinaries_rerun_differs :
    installBinaries fsTwice ["b", "t"] ["b"] "p" "t" [] = .ok gTwice1 ∧
    installBinaries gTwice1 ["b", "t"] ["b"] "p" "t" [] = .ok gTwice2 ∧
    gTwice2 ≠ gTwice1 := by
  refine ⟨rfl, rfl, fun h => ?_⟩
  have h1 : gTwice1.get ((["b", "t"] : Path) ++ ["include"] ++ strToPath "p" ++
      ["h.txt"]) = none := rfl
  have h2 : gTwice2.get ((["b", "t"] : Path) ++ ["include"] ++ strToPath "p" ++
      ["h.txt"]) = some (.file "H") := rfl
  rw [h, h1] at h2
  cases h2

/-- C3 witness: idempotence at the concrete tree `fsTiny`. -/
theorem installBinaries_idem_witness :
    diverges (libDest ["i"] "p") (["b"] ++ strToPath "t") = true ∧
    diverges (includeDest ["i"] "p") (["b"] ++ strToPath "t") = true ∧
    diverges (cmakeDest ["i"] "p") (["b"] ++ strToPath "t") = true ∧
    strToPath "p" ≠ [] ∧
    installBinaries fsTiny ["i"] ["b"] "p" "t" [] = .ok gTiny1 ∧
    installBinaries gTiny1 ["i"] ["b"] "p" "t" [] = .ok gTiny2 ∧
    gTiny2 = gTiny1 :=
  ⟨by decide, by decide, by decide, by decide, rfl, rfl,
    installBinaries_idem fsTiny gTiny1 gTiny2 ["i"] ["b"] "p" "t" []
      (by decide) (by decide) (by decide) (by decide) rfl rfl⟩

/-- C4: in the metadata-driven installer the kinds are processed in the fixed
order share, include, lib; at the first kind whose `install_to_<kind>` key is
absent, the whole operation returns success immediately — right after having
created that kind's destination directory — and no later kind of the order is
processed (the returned tree is exactly the one the directory creation
produced, whatever keys the later kinds may declare). -/
theorem installKinds_key_absent (iB pp : Path) (pkg : String)
    (tab ros : List (String × Value)) (fs fs2 : Node) (subdir : String)
    (rest : List String)
    (htab : lookupTab tab "ros" = some (.table ros))
    (hcda : createDirAll fs (iB ++ [subdir] ++ strToPath pkg) = some fs2)
    (hkey : lookupTab ros ("install_to_" ++ subdir) = none) :
    installFilesFromMetadata fs iB pp pkg (some (.table tab)) =
      installKinds iB pp pkg ros fs ["share", "include", "lib"] ∧
    installKinds iB pp pkg ros fs (subdir :: rest) = .ok fs2 := by
  constructor
  · simp [installFilesFromMetadata, htab]
  · have hcda2 : createDirAll fs (iB ++ subdir :: strToPath pkg) = some fs2 := by
      simpa using hcda
    simp [installKinds, hcda2, hkey]

/-- C4 witness: a `ros` table declaring only `install_to_include` stops the
whole metadata install at the `share` kind. -/
theorem installKinds_key_absent_witness :
    lookupTab [("ros", Value.table rosIncludeOnly)] "ros" =
      some (.table rosIncludeOnly) ∧
    createDirAll fsMeta (["i"] ++ ["share"] ++ strToPath "p") = some fsMetaShare ∧
    lookupTab rosIncludeOnly ("install_to_" ++ "share") = none ∧
    (installFilesFromMetadata fsMeta ["i"] ["pkg"] "p"
        (some (.table [("ros", Value.table rosIncludeOnly)])) =
      installKinds ["i"] ["pkg"] "p" rosIncludeOnly fsMeta
        ["share", "include", "lib"] ∧
     installKinds ["i"] ["pkg"] "p" rosIncludeOnly fsMeta
        ("share" :: ["include", "lib"]) = .ok fsMetaShare) :=
  ⟨rfl, rfl, rfl,
    installKinds_key_absent ["i"] ["pkg"] "p" [("ros", Value.table rosIncludeOnly)]
      rosIncludeOnly fsMeta fsMetaShare "share" ["include", "lib"] rfl rfl rfl⟩

/-- C5: a successful run copies exactly the present candidates among the five
fixed `(prefix, suffix)` combinations into `lib/<pkg>` (same contents as in
the build output), and writes `<pkg>Config.cmake` equal to the fixed template
with the package name substituted, the present candidates' filenames joined
by `";"` in the fixed combination order, and `TRUE`/`FALSE` according to
whether any include root was found. -/
theorem installBinaries_libraries_config (fs g : Node) (iB bB : Path)
    (pkg profile : String) (bins : List Product)
    (hd1 : diverges (libDest iB pkg) (bB ++ strToPath profile) = true)
    (hd2 : diverges (includeDest iB pkg) (bB ++ strToPath profile) = true)
    (hrun : installBinaries fs iB bB pkg profile bins = .ok g) :
    g.get (cmakeDest iB pkg ++ [pkg ++ "Config.cmake"]) =
      some (.file (cmakeConfigText pkg
        (libsOf (fs.get (bB ++ strToPath profile)) pkg)
        (!(relRoots (fs.get (bB ++ strToPath profile))
          rosIncludeMarker).isEmpty))) ∧
    (∀ fn ∈ libsOf (fs.get (bB ++ strToPath profile)) pkg,
      ∃ c, viewGet (fs.get (bB ++ strToPath profile)) [fn] = some (.file c) ∧
        g.get (libDest iB pkg ++ [fn]) = some (.file c)) ∧
    (∀ fn, fn ∈ libsOf (fs.get (bB ++ strToPath profile)) pkg ↔
      ∃ pc ∈ prefixSuffixCombinations, fn = pc.1 ++ pkg ++ "." ++ pc.2 ∧
        ∃ c, viewGet (fs.get (bB ++ strToPath profile)) [fn] = some (.file c)) := by
  obtain ⟨h1, h2, h3, h4, h5⟩ :=
    installBinaries_dests fs g iB bB pkg profile bins hd1 hd2 hrun
  refine ⟨?_, ?_, fun fn => mem_libsOfList_iff _ _ _ _⟩
  · rw [get_append_viewGet, h5]
    simp [viewGet, Node.get, lookupEntry]
  · intro fn hfn
    have hlw : libWrites (fs.get (bB ++ strToPath profile)) pkg bins = true := by
      rw [libWrites]
      cases hx : libsOf (fs.get (bB ++ strToPath profile)) pkg with
      | nil => rw [hx] at hfn; simp at hfn
      | cons a b => simp [hx]
    have hgl := h1 hlw
    rcases libEntries_lookup (fs.get (bB ++ strToPath profile)) pkg
        prefixSuffixCombinations
        (binEntries (fs.get (bB ++ strToPath profile)) bins []) fn with
      ⟨c, hvc, hmem, hlk⟩ | ⟨hnot, hlk⟩
    · refine ⟨c, hvc, ?_⟩
      rw [get_append_viewGet, hgl]
      show Node.get (.dir false
        (builtLibEntries (fs.get (bB ++ strToPath profile)) pkg bins)) [fn] =
        some (.file c)
      simp [Node.get, builtLibEntries, hlk]
    · exact absurd hfn hnot

/-- C5 witness: the statement at the concrete tree `fsLib`, whose build
output holds the shared-library candidate `libp.so`. -/
theorem installBinaries_libraries_config_witness :
    diverges (libDest ["i"] "p") (["b"] ++ strToPath "t") = true ∧
    diverges (includeDest ["i"] "p") (["b"] ++ strToPath "t") = true ∧
    (gLib.get (cmakeDest ["i"] "p" ++ ["p" ++ "Config.cmake"]) =
      some (.file (cmakeConfigText "p"
        (libsOf (fsLib.get (["b"] ++ strToPath "t")) "p")
        (!(relRoots (fsLib.get (["b"] ++ strToPath "t"))
          rosIncludeMarker).isEmpty))) ∧
     (∀ fn ∈ libsOf (fsLib.get (["b"] ++ strToPath "t")) "p",
       ∃ c, viewGet (fsLib.get (["b"] ++ strToPath "t")) [fn] = some (.file c) ∧
         gLib.get (libDest ["i"] "p" ++ [fn]) = some (.file c)) ∧
     (∀ fn, fn ∈ libsOf (fsLib.get (["b"] ++ strToPath "t")) "p" ↔
       ∃ pc ∈ prefixSuffixCombinations, fn = pc.1 ++ "p" ++ "." ++ pc.2 ∧
         ∃ c, viewGet (fsLib.get (["b"] ++ strToPath "t")) [fn] =
           some (.file c))) :=
  ⟨by decide, by decide,
    installBinaries_libraries_config fsLib gLib ["i"] ["b"] "p" "t" []
      (by decide) (by decide) rfl⟩

/-- C6: the source-mirror installer resolves the descriptor's build field as
a tri-state: absent, or an explicit boolean `false`, mean nothing explicit is
copied before the standard mirror copies; a string means that file is copied
into the mirror directory first; any other value aborts the install with the
hard configuration error. -/
theorem installPackage_build_cases (fs fs2 : Node) (iB pp mp : Path)
    (pkg : String) (p : Package)
    (hcda : createDirAll (wipeIfDir fs (rustDest iB pkg)) (rustDest iB pkg) =
      some fs2) :
    (p.build = none →
      installPackage fs iB pp mp pkg ⟨some p⟩ =
        installPackageTail fs2 pp mp (rustDest iB pkg)) ∧
    (p.build = some (.boolean false) →
      installPackage fs iB pp mp pkg ⟨some p⟩ =
        installPackageTail fs2 pp mp (rustDest iB pkg)) ∧
    (∀ path, p.build = some (.str path) →
      installPackage fs iB pp mp pkg ⟨some p⟩ =
        Except.bind (copy fs2 (pp ++ strToPath path) (rustDest iB pkg))
          (fun fs3 => installPackageTail fs3 pp mp (rustDest iB pkg))) ∧
    (∀ w, p.build = some w → (∀ s, w ≠ .str s) → w ≠ .boolean false →
      installPackage fs iB pp mp pkg ⟨some p⟩ =
        .error (.io "Value of 'build' is not a string or boolean")) := by
  refine ⟨?_, ?_, ?_, ?_⟩
  · intro hb
    simp [installPackage, hcda, hb, Bind.bind, Except.bind]
  · intro hb
    simp [installPackage, hcda, hb, Bind.bind, Except.bind]
  · intro path hb
    simp [installPackage, hcda, hb, Bind.bind, Except.bind]
  · intro w hb hs hbf
    cases w with
    | str s => exact absurd rfl (hs s)
    | boolean b =>
        cases b with
        | false => exact absurd rfl hbf
        | true => simp [installPackage, hcda, hb, Bind.bind, Except.bind]
    | integer i => simp [installPackage, hcda, hb, Bind.bind, Except.bind]
    | array vs => simp [installPackage, hcda, hb, Bind.bind, Except.bind]
    | table kvs => simp [installPackage, hcda, hb, Bind.bind, Except.bind]

/-- C6 witness: the absent-build case at the concrete tree `fsTiny`. -/
theorem installPackage_build_cases_witness :
    createDirAll (wipeIfDir fsTiny (rustDest ["i"] "p")) (rustDest ["i"] "p") =
      some fsTinyRust ∧
    (Package.mk "p" none).build = none ∧
    installPackage fsTiny ["i"] ["pkg"] ["pkg", "Cargo.toml"] "p"
        ⟨some (Package.mk "p" none)⟩ =
      installPackageTail fsTinyRust ["pkg"] ["pkg", "Cargo.toml"]
        (rustDest ["i"] "p") :=
  ⟨rfl, rfl,
    (installPackage_build_cases fsTiny fsTinyRust ["i"] ["pkg"]
      ["pkg", "Cargo.toml"] "p" (Package.mk "p" none) rfl).1 rfl⟩

/-- C7: the artifact installer fails with a hard error whenever some binary
descriptor lacks a name or some named binary is absent from the build output
(no tree is produced, aborting the remaining steps), whereas an absent
library candidate is skipped silently: the candidate loop continues exactly
as if the combination were not listed. -/
theorem installBinaries_binary_errors (fs : Node) (iB bB : Path)
    (pkg profile : String) (bins : List Product)
    (hd1 : diverges (libDest iB pkg) (bB ++ strToPath profile) = true) :
    ((∃ b ∈ bins, b.name = none ∨ ∃ nm, b.name = some nm ∧
        viewGet (fs.get (bB ++ strToPath profile)) (strToPath nm) = none) →
      ∃ e, installBinaries fs iB bB pkg profile bins = .error e) ∧
    (∀ fsx pre suf rest,
      isFile fsx ((bB ++ strToPath profile) ++ [pre ++ pkg ++ "." ++ suf]) =
        false →
      copyLibraries (bB ++ strToPath profile) (libDest iB pkg) pkg fsx
          ((pre, suf) :: rest) =
        copyLibraries (bB ++ strToPath profile) (libDest iB pkg) pkg fsx rest) := by
  constructor
  · intro hbad
    have hsrc1 : ∀ q, (wipeIfDir fs (libDest iB pkg)).get
        ((bB ++ strToPath profile) ++ q) =
        viewGet (fs.get (bB ++ strToPath profile)) q := by
      intro q
      rw [get_wipeIfDir_of_diverges fs _ _ (diverges_append_right _ _ _ hd1)]
      exact get_append_viewGet fs _ q
    obtain ⟨e, he⟩ := copyBinaries_error (bB ++ strToPath profile)
      (libDest iB pkg) (fs.get (bB ++ strToPath profile))
      (wipeIfDir fs (libDest iB pkg)) bins hd1 hsrc1 hbad
    exact ⟨e, by simp [installBinaries, Bind.bind, Except.bind, he]⟩
  · intro fsx pre suf rest hnf
    simp only [copyLibraries, hnf, Bool.false_eq_true, if_false]

/-- C7 witness: a nameless binary descriptor makes the run fail on `fsTiny`;
the skip equation instantiated there as well. -/
theorem installBinaries_binary_errors_witness :
    diverges (libDest ["i"] "p") (["b"] ++ strToPath "t") = true ∧
    (((∃ b ∈ binsBad, b.name = none ∨ ∃ nm, b.name = some nm ∧
        viewGet (fsTiny.get (["b"] ++ strToPath "t")) (strToPath nm) = none) →
      ∃ e, installBinaries fsTiny ["i"] ["b"] "p" "t" binsBad = .error e) ∧
     (∀ fsx pre suf rest,
       isFile fsx ((["b"] ++ strToPath "t") ++ [pre ++ "p" ++ "." ++ suf]) =
         false →
       copyLibraries (["b"] ++ strToPath "t") (libDest ["i"] "p") "p" fsx
           ((pre, suf) :: rest) =
         copyLibraries (["b"] ++ strToPath "t") (libDest ["i"] "p") "p" fsx
           rest)) :=
  ⟨by decide,
    installBinaries_binary_errors fsTiny ["i"] ["b"] "p" "t" binsBad (by decide)⟩

/-- C8 witness: discovery on a directory holding the sentinel both in a plain
subdirectory `d` and in a symlinked subdirectory `s`, instantiated at the
plain root `d`. -/
theorem findMarkers_iff_witness :
    nodupNames ndSym = true ∧
    ((["d"] : Path) ∈ findMarkersNode rosIncludeMarker ndSym ↔
      ∃ s es, reachNoSym ndSym ["d"] = some (.dir s es) ∧
        ∃ c, lookupEntry es rosIncludeMarker = some (.file c)) :=
  ⟨by decide, findMarkers_iff rosIncludeMarker ndSym ["d"] (by decide)⟩

/-- C9: the recursive copy primitive begins with
`dest_dir.join(src.file_name().unwrap())` and hence panics whenever the
source path has no final normal component (a path ending in `".."`, or an
empty path); such a source is reachable from the public metadata-driven
installer by declaring `".."` in an `install_to_<kind>` array. -/
theorem copy_panics_no_fileName :
    (∀ fs src destDir, fileName src = none →
      copy fs src destDir = .error .panicked) ∧
    installFilesFromMetadata fsMeta ["i"] ["pkg"] "p"
      (some (.table [("ros", .table rosDotDot)])) = .error .panicked := by
  constructor
  · exact copy_fileName_none
  · have hc : copy fsMetaShare (["pkg"] ++ strToPath "..")
        (["i"] ++ ["share"] ++ strToPath "p") = .error .panicked :=
      copy_fileName_none _ _ _ (by decide)
    have hcme := copyMetadataEntries_head_error ["pkg"]
      (["i"] ++ ["share"] ++ strToPath "p") fsMetaShare ".." [] .panicked hc
    have hik := installKinds_head_error ["i"] ["pkg"] "p" rosDotDot fsMeta
      fsMetaShare "share" ["include", "lib"] [.str ".."] [".."] .panicked
      rfl rfl rfl hcme
    show installKinds ["i"] ["pkg"] "p" rosDotDot fsMeta
      ["share", "include", "lib"] = .error .panicked
    exact hik

/-- C9 witness: `copy` at the concrete source path `".."`. -/
theorem copy_panics_no_fileName_witness :
    fileName ([".."] : Path) = none ∧
    copy (Node.dir false []) [".."] [] = .error .panicked :=
  ⟨by decide,
    (copy_panics_no_fileName).1 (Node.dir false []) [".."] [] (by decide)⟩

/-- C10: amended.  With no binaries and no present library candidate the
artifact installer still succeeds and `lib/<pkg>` does not exist afterwards,
provided what sat there before was not a regular file: a pre-existing
directory is wiped and never recreated.  A pre-existing regular file at
`lib/<pkg>`, however, survives the run (`stale_lib_file_survives`), because
the wipe only removes directories. -/
theorem installBinaries_lib_absent (fs g : Node) (iB bB : Path)
    (pkg profile : String)
    (hd1 : diverges (libDest iB pkg) (bB ++ strToPath profile) = true)
    (hd2 : diverges (includeDest iB pkg) (bB ++ strToPath profile) = true)
    (hnc : libsOf (fs.get (bB ++ strToPath profile)) pkg = [])
    (hnf : ∀ c, fs.get (libDest iB pkg) ≠ some (.file c))
    (hrun : installBinaries fs iB bB pkg profile [] = .ok g) :
    g.get (libDest iB pkg) = none := by
  obtain ⟨-, h2, -, -, -⟩ :=
    installBinaries_dests fs g iB bB pkg profile [] hd1 hd2 hrun
  have hlw : libWrites (fs.get (bB ++ strToPath profile)) pkg [] = false := by
    rw [libWrites, hnc]
    simp
  rw [h2 hlw, get_wipeIfDir_self fs _ (by simp [libDest])]
  cases hg : fs.get (libDest iB pkg) with
  | none => rfl
  | some w =>
      cases w with
      | file c => exact absurd hg (hnf c)
      | dir s es => rfl

/-- C10 counterexample: a regular file sitting at `lib/p` survives a
successful run with no binaries and no library candidates. -/
theorem stale_lib_file_survives :
    installBinaries fsLibFile ["i"] ["b"] "p" "t" [] = .ok gLibFile ∧
    gLibFile.get (libDest ["i"] "p") = some (.file "stale") := ⟨rfl, rfl⟩

/-- C10 witness: the amended statement at the concrete tree `fsStale`, where
nothing sits at `lib/p` before the run. -/
theorem installBinaries_lib_absent_witness :
    diverges (libDest ["i"] "p") (["b"] ++ strToPath "t") = true ∧
    diverges (includeDest ["i"] "p") (["b"] ++ strToPath "t") = true ∧
    libsOf (fsStale.get (["b"] ++ strToPath "t")) "p" = [] ∧
    gStale.get (libDest ["i"] "p") = none :=
  ⟨by decide, by decide, by decide,
    installBinaries_lib_absent fsStale gStale ["i"] ["b"] "p" "t"
      (by decide) (by decide) (by decide)
      (fun c h => by
        rw [(by decide : fsStale.get (libDest ["i"] "p") = none)] at h
        cases h)
      rfl⟩

end CAB
